import Mathlib

/-!
# A verification development for `num`

A shallow embedding of `src/StringRef.cpp` (the reference-counted source
text buffer) and of the definition handling of `src/num.cpp`
(`AddDefinition`, `ReadParamList`, `PrintDefinition`, the per-line bodies of
`RunInteractive`, `LoadDefinitions` and `main`), followed by the theorems
that settle the claims C1 to C10.

Conventions of the embedding:

* C++ exceptions are values of `Exn`; a function that can throw returns
  `Except Exn _`, and a function that mutates an argument passed by
  reference returns the mutated value.
* `size_t` arithmetic is arithmetic on `Nat` reduced modulo `2 ^ sizeBits`.
* Objects owned through `std::shared_ptr` live in an explicit store (a list
  indexed by address); a pointer is an index into it.
-/

namespace num

/-! ## Exceptions -/

/-- The exception class `ExpressionException` of the program, as far as
`PrintError` observes it: `GetMessage`, `GetSource` and `GetCharIndex`. -/
structure ExpressionException where
  message : String
  source : List Char
  charIndex : Nat
deriving DecidableEq, Repr

/-- The two kinds of C++ exception thrown by the embedded code:
`ExpressionException` (thrown by `Lexer::Fail`) and `std::bad_alloc` (thrown
by `StringRef::NewData`). The types are unrelated by inheritance. -/
inductive Exn where
  | expression (e : ExpressionException)
  | bad_alloc
deriving DecidableEq, Repr

/-! ## `StringRef.cpp` -/

/-- The platform constants that `StringRef.cpp` depends on and that the
repository's sources do not fix: the width of `size_t` in bits,
`offsetof(Data, text_)`, and the width in bits of the member `refCount_`,
whose declaration is in `StringRef.h`. The counter is taken unsigned: it
wraps around at `2 ^ countBits`. -/
structure Platform where
  sizeBits : Nat
  headerSize : Nat
  countBits : Nat
deriving DecidableEq, Repr

/-- The 64-bit Windows target: `size_t` has 64 bits, and the header in front
of `text_` is two 32-bit fields, the counter and the length. -/
def x64 : Platform := { sizeBits := 64, headerSize := 8, countBits := 32 }

/-- The 32-bit Windows target. -/
def x86 : Platform := { sizeBits := 32, headerSize := 8, countBits := 32 }

/-- The constant `SIZE_MAX`. -/
def SIZE_MAX (P : Platform) : Nat := 2 ^ P.sizeBits - 1

/-- The constant `UINT32_MAX`. -/
def UINT32_MAX : Nat := 2 ^ 32 - 1

/-- The value of `sizeof(*source)` for `char const* source`: one by definition. -/
def sizeofChar : Nat := 1

/-- Conversion of a mathematical value to `size_t`. -/
def toSize (P : Platform) (n : Nat) : Nat := n % 2 ^ P.sizeBits

/-- Subtraction in `size_t` (wraps around below zero). -/
def subSize (P : Platform) (a b : Nat) : Nat :=
  (toSize P a + 2 ^ P.sizeBits - toSize P b) % 2 ^ P.sizeBits

/-- Addition in `size_t`. -/
def addSize (P : Platform) (a b : Nat) : Nat := toSize P (a + b)

/-- Multiplication in `size_t`. -/
def mulSize (P : Platform) (a b : Nat) : Nat := toSize P (a * b)

/-- The constant `maxLength` of `NewData`:
`std::min<size_t>(UINT32_MAX, (SIZE_MAX / sizeof(*source)) - 1 - offsetof(Data, text_))`. -/
def maxLength (P : Platform) : Nat :=
  min (toSize P UINT32_MAX)
    (subSize P (subSize P (SIZE_MAX P / sizeofChar) 1) P.headerSize)

/-- The local `bufferSize` of `NewData`:
`offsetof(Data, text_) + (length + 1) * sizeof(*source)`, in `size_t`. -/
def bufferSize (P : Platform) (length : Nat) : Nat :=
  addSize P P.headerSize (mulSize P (addSize P length 1) sizeofChar)

/-- The heap block `StringRef::Data`. The counter `refCount_` holds a value
below `2 ^ countBits`. -/
structure Data where
  refCount_ : Nat
  length_ : Nat
  text_ : List Char
deriving DecidableEq, Repr

/-- The terminating character written by `data->text_[length] = 0`. -/
def NUL : Char := Char.ofNat 0

/-- The function `StringRef::NewData(source, length)`. `source` stands for
the `length` readable characters behind the pointer. `malloc` stands for the
allocator: `malloc n` tells whether `malloc(n)` returns a block at this
call. The result is `some (.ok data)` when a block is returned,
`some (.error e)` when `e` is thrown, and `none` when `malloc` returns a
null pointer, which the function dereferences unchecked. -/
def NewData (P : Platform) (malloc : Nat → Bool) (source : List Char) (length : Nat) :
    Option (Except Exn Data) :=
  if length > maxLength P then
    some (.error .bad_alloc)
  else if malloc (bufferSize P length) then
    some (.ok { refCount_ := 0
                length_ := length % 2 ^ 32
                text_ := source.take length ++ [NUL] })
  else
    none

/-! ### Reference counting

`StringRef` objects and the `Data` blocks they point to are explicit state:
`blocks` is the heap of `Data` blocks by address (`none` once freed), `refs`
is the collection of `StringRef` objects ever constructed, by identity
(`some data_` while the object is alive, `none` once destroyed). An operation
returns `none` where the C++ has undefined behaviour: it uses a destroyed
`StringRef` or dereferences a freed block or a null pointer. -/

/-- The `Data` blocks and `StringRef` objects of a program run. -/
structure Memory where
  blocks : List (Option Data)
  refs : List (Option Nat)
deriving DecidableEq, Repr

/-- The function `StringRef::AddRef(data)`: `++(data->refCount_)`. -/
def AddRef (P : Platform) (m : Memory) (data : Nat) : Option Memory :=
  match m.blocks[data]? with
  | some (some d) =>
    some { m with
      blocks := m.blocks.set data
        (some { d with refCount_ := (d.refCount_ + 1) % 2 ^ P.countBits }) }
  | _ => none

/-- The function `StringRef::Release(data)`:
`if (--(data->refCount_) == 0) free(data)`. -/
def Release (P : Platform) (m : Memory) (data : Nat) : Option Memory :=
  match m.blocks[data]? with
  | some (some d) =>
    let refCount := (d.refCount_ + 2 ^ P.countBits - 1) % 2 ^ P.countBits
    if refCount = 0 then
      some { m with blocks := m.blocks.set data none }
    else
      some { m with blocks := m.blocks.set data (some { d with refCount_ := refCount }) }
  | _ => none

/-- The value of `strlen(text)`: the number of characters before the first `0`. -/
def strlen (text : List Char) : Nat := (text.takeWhile (fun c => c != NUL)).length

/-- The tail of both converting constructors: `data_ = NewData(...)` puts a
new block on the heap, then `AddRef(data_)`; the constructed object is the
new last entry of `refs`. A throw from `NewData` leaves the memory as it
was, and no object is constructed. -/
def StringRef.ofData (P : Platform) (m : Memory) (r : Option (Except Exn Data)) :
    Option (Except Exn Memory) :=
  match r with
  | none => none
  | some (.error e) => some (.error e)
  | some (.ok d) =>
    let data_ := m.blocks.length
    match AddRef P { m with blocks := m.blocks ++ [some d] } data_ with
    | some m1 => some (.ok { m1 with refs := m1.refs ++ [some data_] })
    | none => none

/-- The function `StringRef::StringRef(char const* text)`. -/
def StringRef.ofCStr (P : Platform) (malloc : Nat → Bool) (m : Memory) (text : List Char) :
    Option (Except Exn Memory) :=
  StringRef.ofData P m (NewData P malloc text (strlen text))

/-- The function `StringRef::StringRef(gsl::span<char const> text)`. -/
def StringRef.ofSpan (P : Platform) (malloc : Nat → Bool) (m : Memory) (text : List Char) :
    Option (Except Exn Memory) :=
  StringRef.ofData P m (NewData P malloc text text.length)

/-- The function `StringRef::StringRef(StringRef const& rhs)`; the
constructed object is the new last entry of `refs`. -/
def StringRef.copy (P : Platform) (m : Memory) (rhs : Nat) : Option Memory :=
  match m.refs[rhs]? with
  | some (some data_) =>
    match AddRef P m data_ with
    | some m1 => some { m1 with refs := m1.refs ++ [some data_] }
    | none => none
  | _ => none

/-- The function `StringRef::operator=(StringRef const& rhs)` on the object
`self`: `AddRef(rhs.data_); Release(data_); data_ = rhs.data_;`. -/
def StringRef.assign (P : Platform) (m : Memory) (self rhs : Nat) : Option Memory :=
  match m.refs[self]?, m.refs[rhs]? with
  | some (some data_), some (some rhsData) =>
    match AddRef P m rhsData with
    | some m1 =>
      match Release P m1 data_ with
      | some m2 => some { m2 with refs := m2.refs.set self (some rhsData) }
      | none => none
    | none => none
  | _, _ => none

/-- The function `StringRef::~StringRef()` on the object `self`:
`Release(data_)`; the object is dead afterwards. -/
def StringRef.destroy (P : Platform) (m : Memory) (self : Nat) : Option Memory :=
  match m.refs[self]? with
  | some (some data_) =>
    match Release P m data_ with
    | some m1 => some { m1 with refs := m1.refs.set self none }
    | none => none
  | _ => none

/-- The operations of `StringRef.cpp` on `StringRef` objects. -/
inductive Op where
  | ofCStr (text : List Char)
  | ofSpan (text : List Char)
  | copy (rhs : Nat)
  | assign (self rhs : Nat)
  | destroy (self : Nat)
deriving DecidableEq, Repr

/-- One operation on the memory, with the allocator `malloc` of that moment;
a throw leaves the memory as it was. -/
def Memory.step (P : Platform) (malloc : Nat → Bool) (m : Memory) :
    Op → Option (Except Exn Memory)
  | .ofCStr text => StringRef.ofCStr P malloc m text
  | .ofSpan text => StringRef.ofSpan P malloc m text
  | .copy rhs => (StringRef.copy P m rhs).map .ok
  | .assign self rhs => (StringRef.assign P m self rhs).map .ok
  | .destroy self => (StringRef.destroy P m self).map .ok

/-- Running a sequence of operations; an operation that throws is skipped
(the exception is handled by the caller and the memory is as before). -/
def Memory.run (P : Platform) (malloc : Nat → Bool) (m : Memory) : List Op → Option Memory
  | [] => some m
  | op :: ops =>
    match m.step P malloc op with
    | some (.ok m1) => m1.run P malloc ops
    | some (.error _) => m.run P malloc ops
    | none => none

/-- The number of live `StringRef` objects whose `data_` is the block `p`. -/
def Memory.handles (m : Memory) (p : Nat) : Nat := m.refs.count (some p)

/-- The object `h` is a live `StringRef`. -/
def Memory.live (m : Memory) (h : Nat) : Prop := ∃ p, m.refs[h]? = some (some p)

/-- The objects an operation uses are alive, as the C++ object lifetime rules
require of the caller. -/
def Memory.accepts (m : Memory) : Op → Prop
  | .ofCStr _ => True
  | .ofSpan _ => True
  | .copy rhs => m.live rhs
  | .assign self rhs => m.live self ∧ m.live rhs
  | .destroy self => m.live self

/-- The length that a converting constructor passes to `NewData`; `none` for
the other operations. -/
def Op.length? : Op → Option Nat
  | .ofCStr text => some (strlen text)
  | .ofSpan text => some text.length
  | _ => none

/-- The allocator fails the operation: the operation is a converting
constructor whose text is not too long, and `malloc` returns no block for
its buffer. -/
def Op.starved (P : Platform) (malloc : Nat → Bool) (op : Op) : Prop :=
  ∃ n, op.length? = some n ∧ n ≤ maxLength P ∧ malloc (bufferSize P n) = false

/-- The counters can hold the numbers of live objects: every block has
fewer than `2 ^ countBits` live objects pointing to it. -/
def Memory.fits (P : Platform) (m : Memory) : Prop :=
  ∀ p, m.handles p < 2 ^ P.countBits

/-- The reference-count invariant: a block that has not been freed has a
count equal to the number of live objects pointing to it, and at least one
such object; no live object points to a freed block or outside the heap. -/
def Memory.Inv (m : Memory) : Prop :=
  (∀ p d, m.blocks[p]? = some (some d) →
      d.refCount_ = m.handles p ∧ 0 < m.handles p) ∧
  (∀ p, (∀ d, m.blocks[p]? ≠ some (some d)) → m.handles p = 0)

/-- The memory states reached from the empty memory by operations on live
objects, whatever the allocator does at each of them, as long as the
counters can hold the numbers of live objects. -/
inductive Memory.Reachable (P : Platform) : Memory → Prop where
  | init : Memory.Reachable P { blocks := [], refs := [] }
  | step (m m1 : Memory) (op : Op) (malloc : Nat → Bool) :
      Memory.Reachable P m → m.step P malloc op = some (.ok m1) → m1.fits P →
      Memory.Reachable P m1

/-! ## The lexer

`Lexer.h` and `Lexer.cpp` are not among the sources. `num.cpp` uses a lexer
through `GetTokenType`, `GetName`, `GetSource`, `Advance` and `Fail`. -/

/-- The token kinds. `None`, `Name`, `StartGroup`, `EndGroup`, `Comma` and
`Lamda` are the enumerators `num.cpp` names; numbers and operators are the
remaining kinds of the specification's token list. -/
inductive TokenType where
  | None
  | Name
  | Number
  | Operator
  | StartGroup
  | EndGroup
  | Comma
  | Lamda
deriving DecidableEq, Repr

/-- A token: its kind, its payload (the name of a `Name` token, the text of a
literal or operator) and its byte offset in the source text. -/
structure Token where
  type : TokenType
  payload : String
  charIndex : Nat
deriving DecidableEq, Repr

/-- Modelled from the spec: `Lexer`, whose code is not among the sources. The
specification gives it a source text and a cursor, `Current() -> Token`,
`Advance()` computing the next token, `Fail(message)` raising an
`ExpressionError` with the source text and the current offset, a distinct
end token at the end of the input, and a failure at an unrecognized
character. Here the text behind the cursor is held already scanned:
`tokens` is the current token followed by the tokens up to the end of the
input or up to the first unrecognized character, and `lexError` is the
exception `Advance` raises on reaching such a character (`none` when the
whole text scans). With `tokens` empty the lexer is at the end of the input
and the current token has kind `None`. -/
structure Lexer where
  source : List Char
  tokens : List Token
  lexError : Option ExpressionException
deriving DecidableEq, Repr

/-- The function `lexer.GetTokenType()`. -/
def Lexer.GetTokenType (lexer : Lexer) : TokenType :=
  match lexer.tokens with
  | [] => .None
  | t :: _ => t.type

/-- The function `lexer.GetName()`. -/
def Lexer.GetName (lexer : Lexer) : String :=
  match lexer.tokens with
  | [] => ""
  | t :: _ => t.payload

/-- The function `lexer.GetSource()`. -/
def Lexer.GetSource (lexer : Lexer) : List Char := lexer.source

/-- The offset of the current token (the end of the text at the end token). -/
def Lexer.GetCharIndex (lexer : Lexer) : Nat :=
  match lexer.tokens with
  | [] => lexer.source.length
  | t :: _ => t.charIndex

/-- The function `lexer.Fail(message)`: the exception it throws. -/
def Lexer.Fail (lexer : Lexer) (message : String) : Exn :=
  .expression { message := message, source := lexer.source, charIndex := lexer.GetCharIndex }

/-- The function `lexer.Advance()`: the lexer moved to the next token, or the exception
raised at an unrecognized character. At the end of the input it stays
there. -/
def Lexer.Advance (lexer : Lexer) : Except Exn Lexer :=
  match lexer.tokens with
  | [] => .ok lexer
  | [_] =>
    match lexer.lexError with
    | some e => .error (.expression e)
    | none => .ok { lexer with tokens := [] }
  | _ :: t :: ts => .ok { lexer with tokens := t :: ts }

/-! ## Definitions and the definition list -/

/-- The address of a `Definition` object, the value of a
`std::shared_ptr<Definition>`. -/
abbrev Ptr := Nat

/-- The class `Definition` with the members `num.cpp` uses; the initial
values are those of `std::make_shared<Definition>()`. -/
structure Definition (E : Type) where
  name : String := ""
  isFunction : Bool := false
  paramNames : List String := []
  expression : Option E := none
deriving DecidableEq, Repr

/-- The type `NameMap`: a finite map from names to definitions, used through
`find` and `operator[]`. -/
abbrev NameMap := String → Option Ptr

/-- The class `DefinitionList`: the members `vec` and `map`. -/
structure DefinitionList where
  vec : List Ptr
  map : NameMap

/-- The store of `Definition` objects, by address. -/
abbrev Heap (E : Type) := List (Definition E)

/-- The call `std::make_shared<Definition>()`: the new object is the last of the
store, its address the old size of the store. -/
def Heap.alloc {E : Type} (heap : Heap E) : Ptr × Heap E :=
  (heap.length, heap ++ [({ } : Definition E)])

/-- An assignment through a pointer: `p->member = ...`. -/
def Heap.write {E : Type} (heap : Heap E) (p : Ptr) (f : Definition E → Definition E) :
    Heap E :=
  match heap[p]? with
  | some d => heap.set p (f d)
  | none => heap

/-- The destruction of the object allocated last, when the only
`shared_ptr` to it goes out of scope. -/
def Heap.free {E : Type} (heap : Heap E) : Heap E := heap.dropLast

/-- One piece of output. -/
inductive Output where
  | out (text : String)
  | err (text : String)
  | error (e : ExpressionException)
deriving DecidableEq, Repr

/-- What the program state consists of: the store of definitions, the
`DefinitionList globals`, and the output written so far. -/
structure World (E : Type) where
  heap : Heap E
  globals : DefinitionList
  output : List Output

/-- The state at the start: `DefinitionList globals;`. -/
def World.empty {E : Type} : World E :=
  { heap := [], globals := { vec := [], map := fun _ => none }, output := [] }

/-- The value type `Number` of `PrintNumber`. -/
structure Number (D : Type) where
  isDouble : Bool
  doubleValue : D
  intValue : Int

/-- The parts of the program that are not among the sources and that
`num.cpp` calls: the scanning done by the `Lexer` constructor, the parser,
evaluation and printing of an expression, and the `printf` conversions of
`PrintNumber`. `E` is the type of expressions, `D` that of `double`. The
parser receives the lexer, `globals.map`, the store through which it reads
definitions, and the definition being defined, if any; it does not change
the store. -/
structure Engine (E D : Type) where
  lex : List Char → Except Exn Lexer
  ParseFullExpression : Lexer → NameMap → Heap E → Option Ptr → Except Exn E
  Evaluate : Heap E → E → Except Exn (Number D)
  Print : Heap E → E → String
  formatDouble : D → String
  formatInt : Int → String
  formatHex : Int → String

/-! ## `num.cpp` -/

/-- The string `g_help`. -/
def g_help : String :=
  "Command Line:\n" ++
  "\n" ++
  "    num                                    Process commands interactively.\n" ++
  "    num <expression>                       Evaluate expression and exit.\n" ++
  "    num -?                                 Show this help message.\n" ++
  "\n" ++
  "Interactive commands:\n" ++
  "\n" ++
  "    q                                      Quit.\n" ++
  "    help                                   Show this help message.\n" ++
  "    <expression>                           Evalute expression.\n" ++
  "    def <name> => <expression>             Define variable.\n" ++
  "    def <name>(<params>) => <expression>   Define function.\n" ++
  "    defs                                   List all definitions.\n" ++
  "    def <name>                             List specific definition.\n" ++
  "\n" ++
  "Definitions may also be specified in a num.ini file, which may be in the current\n" ++
  "directory or anywhere in the path. Definitions specified in num.ini do not begin\n" ++
  "with the \"def\" keyword. Following are some example definitions:\n" ++
  "\n" ++
  "    def sqrt(n) => n ** 0.5\n" ++
  "    def is_prime_helper(n, f) => f * f > n ? 1 : n % f = 0 ? 0 : is_prime_helper(n, f + 2)\n" ++
  "    def is_prime(n) => n < 3 ? n = 2 : (n & 1) = 0 ? 0 : is_prime_helper(n, 3)\n"

/-- The loop `for (;;)` of `ReadParamList`, entered on a `Name` token. The
first argument bounds the number of iterations; `ReadParamList` passes the
number of tokens left, which the loop never uses up, one iteration taking
two tokens. -/
def ReadParamList.loop : Nat → Lexer → List String → Except Exn (Lexer × List String)
  | 0, lexer, names => .ok (lexer, names)
  | fuel + 1, lexer, names =>
    let names := names ++ [lexer.GetName]
    match lexer.Advance with
    | .error e => .error e
    | .ok lexer =>
      if lexer.GetTokenType = .EndGroup then
        match lexer.Advance with
        | .error e => .error e
        | .ok lexer => .ok (lexer, names)
      else if lexer.GetTokenType ≠ .Comma then
        .error (lexer.Fail "Expected ',' or ')' after name.")
      else
        match lexer.Advance with
        | .error e => .error e
        | .ok lexer =>
          if lexer.GetTokenType ≠ .Name then
            .error (lexer.Fail "Expected name after ','.")
          else
            ReadParamList.loop fuel lexer names

/-- The function `ReadParamList(lexer, names)`, called on a `StartGroup` token: the lexer
and the vector of names as the call leaves them, or the exception thrown. -/
def ReadParamList (lexer : Lexer) (names : List String) : Except Exn (Lexer × List String) :=
  match lexer.Advance with
  | .error e => .error e
  | .ok lexer =>
    if lexer.GetTokenType = .EndGroup then
      match lexer.Advance with
      | .error e => .error e
      | .ok lexer => .ok (lexer, names)
    else if lexer.GetTokenType ≠ .Name then
      .error (lexer.Fail "Expected name or ')' after '('.")
    else
      ReadParamList.loop lexer.tokens.length lexer names

/-- The parameter list as `PrintDefinition` prints it: the names separated
by `", "`. -/
def printParams : List String → String
  | [] => ""
  | [a] => a
  | a :: b :: rest => a ++ ", " ++ printParams (b :: rest)

/-- The function `PrintDefinition(def)`: the text written to `stdout`, or `none` when the
definition has no expression (a null pointer is dereferenced). -/
def PrintDefinition {E D : Type} (engine : Engine E D) (heap : Heap E) (d : Definition E) :
    Option String :=
  match d.expression with
  | none => none
  | some expression =>
    some ("def " ++ d.name ++
      (if d.isFunction then "(" ++ printParams d.paramNames ++ ")" else "") ++
      " => " ++ engine.Print heap expression ++ "\n")

/-- How control leaves a piece of the driver: normally, by `break`/`return`
out of the command loop, by an exception that no handler of the piece
catches, or with undefined behaviour (a null or dangling pointer is
dereferenced). -/
inductive Flow where
  | next
  | stop
  | uncaught (e : Exn)
  | undefined
deriving DecidableEq, Repr

/-- The function `AddDefinition(globals, lexer)`. The result is how the call
ends and the state it leaves. Every exit other than the last destroys the
new `Definition`, to which `def` is the only pointer. `ReadParamList`
appends to `def->paramNames`: the names it appends to an empty vector are
appended to the member. -/
def AddDefinition {E D : Type} (engine : Engine E D) (w : World E) (lexer : Lexer) :
    Flow × World E :=
  if lexer.GetTokenType ≠ .Name then
    (.uncaught (lexer.Fail "Name expected after 'def'."), w)
  else
    let (def_, heap) := w.heap.alloc
    let heap := heap.write def_ (fun d => { d with name := lexer.GetName })
    let name := lexer.GetName
    match lexer.Advance with
    | .error e => (.uncaught e, { w with heap := heap.free })
    | .ok lexer =>
      if lexer.GetTokenType = .None then
        match w.globals.map name with
        | some p =>
          match heap[p]? with
          | none => (.undefined, { w with heap := heap.free })
          | some d =>
            match PrintDefinition engine heap d with
            | none => (.undefined, { w with heap := heap.free })
            | some text =>
              (.next, { w with heap := heap.free, output := w.output ++ [.out text] })
        | none =>
          (.next, { w with
            heap := heap.free
            output := w.output ++ [.out ("No definition for " ++ name ++ ".\n")] })
      else
        let params : Except Exn (Lexer × Heap E) :=
          if lexer.GetTokenType = .StartGroup then
            let heap := heap.write def_ (fun d => { d with isFunction := true })
            match ReadParamList lexer [] with
            | .error e => .error e
            | .ok (lexer, names) =>
              .ok (lexer, heap.write def_ (fun d =>
                { d with paramNames := d.paramNames ++ names }))
          else
            .ok (lexer, heap)
        match params with
        | .error e => (.uncaught e, { w with heap := heap.free })
        | .ok (lexer, heap) =>
          if lexer.GetTokenType ≠ .Lamda then
            (.uncaught (lexer.Fail "'=>' expected."), { w with heap := heap.free })
          else
            match lexer.Advance with
            | .error e => (.uncaught e, { w with heap := heap.free })
            | .ok lexer =>
              match engine.ParseFullExpression lexer w.globals.map heap (some def_) with
              | .error e => (.uncaught e, { w with heap := heap.free })
              | .ok expression =>
                let heap := heap.write def_ (fun d => { d with expression := some expression })
                (.next,
                  { heap := heap
                    globals :=
                      { vec := w.globals.vec ++ [def_]
                        map := Function.update w.globals.map name (some def_) }
                    output := w.output })

/-- The function `PrintError(e)`: the text written to `stdout`. -/
def PrintError (e : ExpressionException) : String :=
  "Error: " ++ e.message ++ "\n       " ++ String.mk e.source ++ "\n       " ++
    String.mk (List.replicate e.charIndex ' ') ++ "^\n"

/-- The text of a piece of output. -/
def Output.text : Output → String
  | .out text => text
  | .err text => text
  | .error e => PrintError e

/-- The function `PrintNumber(value)`: the text written to `stdout`. -/
def PrintNumber {E D : Type} (engine : Engine E D) (value : Number D) : String :=
  if value.isDouble then
    engine.formatDouble value.doubleValue
  else
    engine.formatInt value.intValue ++ " (0x" ++ engine.formatHex value.intValue ++ ")"

/-- The function `Evaluate(globals, lexer)`. -/
def Evaluate {E D : Type} (engine : Engine E D) (w : World E) (lexer : Lexer) :
    Flow × World E :=
  match engine.ParseFullExpression lexer w.globals.map w.heap none with
  | .error e => (.uncaught e, w)
  | .ok parsedExpr =>
    match engine.Evaluate w.heap parsedExpr with
    | .error e => (.uncaught e, w)
    | .ok value =>
      (.next, { w with output := w.output ++
        [.out (String.mk lexer.GetSource ++ " = "), .out (PrintNumber engine value), .out "\n"] })

/-- The function `ShowHelp()`. -/
def ShowHelp {E : Type} (w : World E) : Flow × World E :=
  (.next, { w with output := w.output ++ [.out g_help] })

/-- The handler `catch (ExpressionException const& e) { PrintError(e); }`
applied to the outcome of the guarded block: it handles an
`ExpressionException` and lets every other exception pass. -/
def catchExpressionException {E : Type} (r : Flow × World E) : Flow × World E :=
  match r.1 with
  | .uncaught (.expression e) => (.next, { r.2 with output := r.2.output ++ [.error e] })
  | _ => r

/-- The text a `StringRef` holds: the first `length_` characters of the
block. -/
def Data.view (d : Data) : List Char := d.text_.take d.length_

/-- The declaration `Lexer lexer{ StringRef{ input } };`: the `StringRef` is
constructed from the span of the `std::string`, then the lexer scans it. In
the driver `malloc` is taken to return a block. The result is `none` where
the behaviour is undefined. -/
def newLexer {E D : Type} (engine : Engine E D) (P : Platform) (input : List Char) :
    Option (Except Exn Lexer) :=
  match NewData P (fun _ => true) input input.length with
  | none => none
  | some (.error e) => some (.error e)
  | some (.ok data) => some (engine.lex data.view)

/-- The loop `for (auto& def : globals.vec) PrintDefinition(*def);` of the
command `defs`. -/
def printAll {E D : Type} (engine : Engine E D) (w : World E) : List Ptr → Flow × World E
  | [] => (.next, w)
  | p :: rest =>
    match w.heap[p]? with
    | none => (.undefined, w)
    | some d =>
      match PrintDefinition engine w.heap d with
      | none => (.undefined, w)
      | some text => printAll engine { w with output := w.output ++ [.out text] } rest

/-- The guarded block of the command loop of `RunInteractive`, for one line
of input. -/
def RunInteractive.tryBlock {E D : Type} (engine : Engine E D) (P : Platform) (w : World E)
    (input : List Char) : Flow × World E :=
  match newLexer engine P input with
  | none => (.undefined, w)
  | some (.error e) => (.uncaught e, w)
  | some (.ok lexer) =>
    if lexer.GetTokenType = .None then
      (.next, w)
    else if lexer.GetTokenType = .Name then
      if lexer.GetName = "q" then
        (.stop, w)
      else if lexer.GetName = "help" then
        ShowHelp w
      else if lexer.GetName = "def" then
        match lexer.Advance with
        | .error e => (.uncaught e, w)
        | .ok lexer => AddDefinition engine w lexer
      else if lexer.GetName = "defs" then
        printAll engine w w.globals.vec
      else
        Evaluate engine w lexer
    else
      Evaluate engine w lexer

/-- One iteration of the command loop of `RunInteractive`: the prompt, the
line read, the guarded block and its handler. -/
def RunInteractive.body {E D : Type} (engine : Engine E D) (P : Platform) (w : World E)
    (input : List Char) : Flow × World E :=
  catchExpressionException
    (RunInteractive.tryBlock engine P { w with output := w.output ++ [.out "\n> "] } input)

/-- The guarded block of the loop of `LoadDefinitions`, for one line of the
file. -/
def LoadDefinitions.tryBlock {E D : Type} (engine : Engine E D) (P : Platform) (w : World E)
    (inputLine : List Char) : Flow × World E :=
  match newLexer engine P inputLine with
  | none => (.undefined, w)
  | some (.error e) => (.uncaught e, w)
  | some (.ok lexer) =>
    if lexer.GetTokenType ≠ .None then
      AddDefinition engine w lexer
    else
      (.next, w)

/-- The handler of the loop of `LoadDefinitions`, applied to the outcome of
the guarded block: it handles an `ExpressionException`, naming the file and
the line on `stderr` before `PrintError`, and lets every other exception
pass. -/
def LoadDefinitions.handler {E : Type} (filePath : String) (lineNumber : Nat)
    (r : Flow × World E) : Flow × World E :=
  match r.1 with
  | .uncaught (.expression e) =>
    (.next, { r.2 with output := r.2.output ++
      [.err ("Error: " ++ filePath ++ ", line " ++ toString lineNumber ++ ":\n"), .error e] })
  | _ => r

/-- One iteration of the loop of `LoadDefinitions`: the guarded block and its
handler. -/
def LoadDefinitions.body {E D : Type} (engine : Engine E D) (P : Platform)
    (filePath : String) (w : World E) (lineNumber : Nat) (inputLine : List Char) :
    Flow × World E :=
  LoadDefinitions.handler filePath lineNumber (LoadDefinitions.tryBlock engine P w inputLine)

/-- The loop of `LoadDefinitions` over the lines of the file, from line
`lineNumber` on. -/
def LoadDefinitions.loop {E D : Type} (engine : Engine E D) (P : Platform)
    (filePath : String) (w : World E) (lineNumber : Nat) : List (List Char) → Flow × World E
  | [] => (.next, w)
  | inputLine :: rest =>
    match LoadDefinitions.body engine P filePath w lineNumber inputLine with
    | (.next, w1) => LoadDefinitions.loop engine P filePath w1 (lineNumber + 1) rest
    | r => r

/-- The function `LoadDefinitions(globals)`. `file` is what `SearchPath` and the file
system give: `none` when there is no `num.ini`, else its path and lines. -/
def LoadDefinitions {E D : Type} (engine : Engine E D) (P : Platform)
    (file : Option (String × List (List Char))) (w : World E) : Flow × World E :=
  match file with
  | none => (.next, w)
  | some (filePath, lines) => LoadDefinitions.loop engine P filePath w 1 lines

/-- The command loop of `RunInteractive` over the lines read from the
standard input. -/
def RunInteractive.loop {E D : Type} (engine : Engine E D) (P : Platform) (w : World E) :
    List (List Char) → Flow × World E
  | [] => (.next, w)
  | input :: rest =>
    match RunInteractive.body engine P w input with
    | (.next, w1) => RunInteractive.loop engine P w1 rest
    | r => r

/-- The function `RunInteractive()`, for the lines `inputs` of the standard input. -/
def RunInteractive {E D : Type} (engine : Engine E D) (P : Platform)
    (file : Option (String × List (List Char))) (inputs : List (List Char)) :
    Flow × World E :=
  match LoadDefinitions engine P file World.empty with
  | (.next, w) =>
    RunInteractive.loop engine P
      { w with output := w.output ++
        [.out "Num expression evaluator. Type 'help' for usage.\n"] } inputs
  | r => r

/-- The guarded block of `main` for a command line with arguments: the
definitions are loaded and `input`, the arguments joined by blanks, is
evaluated. -/
def main.tryBlock {E D : Type} (engine : Engine E D) (P : Platform)
    (file : Option (String × List (List Char))) (input : List Char) : Flow × World E :=
  match LoadDefinitions engine P file World.empty with
  | (.next, w) =>
    match newLexer engine P input with
    | none => (.undefined, w)
    | some (.error e) => (.uncaught e, w)
    | some (.ok lexer) => Evaluate engine w lexer
  | r => r

/-- The evaluation branch of `main`: the guarded block and its handler. -/
def main.evaluate {E D : Type} (engine : Engine E D) (P : Platform)
    (file : Option (String × List (List Char))) (input : List Char) : Flow × World E :=
  catchExpressionException (main.tryBlock engine P file input)

/-! ## The grammar of parameter lists -/

/-- What `ReadParamList` does once it has pushed a name and advanced: the
rest of the loop body, followed by the remaining iterations. -/
def ReadParamList.afterName (lexer : Lexer) (names : List String) :
    Except Exn (Lexer × List String) :=
  if lexer.GetTokenType = .EndGroup then
    match lexer.Advance with
    | .error e => .error e
    | .ok lexer => .ok (lexer, names)
  else if lexer.GetTokenType ≠ .Comma then
    .error (lexer.Fail "Expected ',' or ')' after name.")
  else
    match lexer.Advance with
    | .error e => .error e
    | .ok lexer =>
      if lexer.GetTokenType ≠ .Name then
        .error (lexer.Fail "Expected name after ','.")
      else
        ReadParamList.loop lexer.tokens.length lexer names


/-- The result of `n` calls of `Advance`. -/
def Lexer.advanceN : Nat → Lexer → Except Exn Lexer
  | 0, lexer => .ok lexer
  | n + 1, lexer =>
    match lexer.Advance with
    | .error e => .error e
    | .ok lexer => Lexer.advanceN n lexer

/-- The lexer `lexer` is on the first token of `ts`, the tokens `ts` follow
one another in the text, and advancing over them brings it to `lexer1`. -/
def Lexer.Reads (lexer : Lexer) (ts : List Token) (lexer1 : Lexer) : Prop :=
  (∃ rest, lexer.tokens = ts ++ rest) ∧ lexer.advanceN ts.length = .ok lexer1

/-- The token sequences `Name (',' Name)*`, with the names written. -/
inductive NameSeq : List Token → List String → Prop where
  | single (t : Token) : t.type = .Name → NameSeq [t] [t.payload]
  | more (t c : Token) (ts : List Token) (ns : List String) :
      t.type = .Name → c.type = .Comma → NameSeq ts ns →
      NameSeq (t :: c :: ts) (t.payload :: ns)

/-- The token sequences `'(' ')'` and `'(' Name (',' Name)* ')'`, with the
names written. -/
inductive ParamList : List Token → List String → Prop where
  | none (o c : Token) : o.type = .StartGroup → c.type = .EndGroup → ParamList [o, c] []
  | some (o c : Token) (ts : List Token) (ns : List String) :
      o.type = .StartGroup → NameSeq ts ns → c.type = .EndGroup →
      ParamList (o :: (ts ++ [c])) ns

/-- A lexer on the tokens of `f ( a , b ) =>`, used in examples. -/
def sampleParams : Lexer :=
  { source := ['(', 'a', ',', 'b', ')', '=', '>']
    tokens :=
      [{ type := .StartGroup, payload := "(", charIndex := 0 },
       { type := .Name, payload := "a", charIndex := 1 },
       { type := .Comma, payload := ",", charIndex := 2 },
       { type := .Name, payload := "b", charIndex := 3 },
       { type := .EndGroup, payload := ")", charIndex := 4 },
       { type := .Lamda, payload := "=>", charIndex := 5 }]
    lexError := none }

/-! ## Auxiliary definitions for `AddDefinition` -/

/-- The statements of `AddDefinition` between the name and the body, from
the token after the name on: the optional parameter list, the check for
`=>` and the step over it. The result is the lexer on the first token of
the body and the parameter names read. -/
def AddDefinition.head (lexer : Lexer) : Except Exn (Lexer × List String) :=
  match (if lexer.GetTokenType = .StartGroup then ReadParamList lexer []
         else .ok (lexer, [])) with
  | .error e => .error e
  | .ok (lexer, names) =>
    if lexer.GetTokenType ≠ .Lamda then
      .error (lexer.Fail "'=>' expected.")
    else
      match lexer.Advance with
      | .error e => .error e
      | .ok lexer => .ok (lexer, names)

/-- The `Definition` as it is when `AddDefinition` constructs the parser:
`lexer` is the lexer on the name, `lexer1` the lexer on the token after it,
`names` the parameter names read. -/
def AddDefinition.inProgress {E : Type} (lexer lexer1 : Lexer) (names : List String) :
    Definition E :=
  { name := lexer.GetName
    isFunction := decide (lexer1.GetTokenType = .StartGroup)
    paramNames := names
    expression := none }

/-- The `Definition` that `AddDefinition` inserts: the one in progress with
the parsed body attached. -/
def AddDefinition.built {E : Type} (lexer lexer1 : Lexer) (names : List String)
    (expression : E) : Definition E :=
  { name := lexer.GetName
    isFunction := decide (lexer1.GetTokenType = .StartGroup)
    paramNames := names
    expression := some expression }

/-- The branch of `AddDefinition` for `def <name>` alone, in the state with
the new `Definition` allocated. -/
def AddDefinition.query {E D : Type} (engine : Engine E D) (w : World E) (name : String) :
    Flow × World E :=
  let heap := w.heap ++ [({ name := name } : Definition E)]
  match w.globals.map name with
  | some p =>
    match heap[p]? with
    | none => (.undefined, w)
    | some d =>
      match PrintDefinition engine heap d with
      | none => (.undefined, w)
      | some text => (.next, { w with output := w.output ++ [.out text] })
  | none =>
    (.next, { w with output := w.output ++ [.out ("No definition for " ++ name ++ ".\n")] })

/-- The call of `AddDefinition` builds the definition `d` from the input: the current
token is a name, a token follows it, the optional parameter list and `=>`
are accepted, and the parser accepts the body. -/
def AddDefinition.Builds {E D : Type} (engine : Engine E D) (w : World E) (lexer : Lexer)
    (d : Definition E) : Prop :=
  ∃ lexer1 lexer3 names expression,
    lexer.GetTokenType = .Name ∧
    lexer.Advance = .ok lexer1 ∧
    lexer1.GetTokenType ≠ .None ∧
    AddDefinition.head lexer1 = .ok (lexer3, names) ∧
    engine.ParseFullExpression lexer3 w.globals.map
      (w.heap ++ [AddDefinition.inProgress lexer lexer1 names]) (some w.heap.length)
        = .ok expression ∧
    d = AddDefinition.built lexer lexer1 names expression

/-- The pointers of the definition list point into the store. -/
def World.WF {E : Type} (w : World E) : Prop :=
  (∀ q, q ∈ w.globals.vec → q < w.heap.length) ∧
  (∀ n q, w.globals.map n = some q → q < w.heap.length)

/-- The last entry of `vec` whose definition has the name `n`. -/
def World.lastNamed {E : Type} (w : World E) (n : String) : Option Ptr :=
  (w.globals.vec.filter (fun q => decide ((w.heap[q]?).map (fun d => d.name) = some n))).getLast?

/-- The invariant of the definition list: `map` has for each name the last
entry of `vec` with that name, and every definition of the store has its
expression. -/
def World.Current {E : Type} (w : World E) : Prop :=
  (∀ n, w.globals.map n = w.lastNamed n) ∧ (∀ d, d ∈ w.heap → d.expression ≠ none)

/-- The states reached from the empty definition list by calls of
`AddDefinition`, whatever the input and however the call ends. -/
inductive World.Reachable {E D : Type} (engine : Engine E D) : World E → Prop where
  | empty : World.Reachable engine World.empty
  | step (w : World E) (lexer : Lexer) :
      World.Reachable engine w → World.Reachable engine (AddDefinition engine w lexer).2

/-! ## A small engine for examples -/

/-- The kind of a blank-delimited word. -/
def demoType (word : List Char) : TokenType :=
  if word = ['('] then .StartGroup
  else if word = [')'] then .EndGroup
  else if word = [','] then .Comma
  else if word = ['=', '>'] then .Lamda
  else if word.all Char.isAlpha then .Name
  else if word.all Char.isDigit then .Number
  else .Operator

/-- The token for the word `word` (given reversed) that ends before offset
`pos`. -/
def demoToken (word : List Char) (pos : Nat) : Token :=
  { type := demoType word.reverse
    payload := String.mk word.reverse
    charIndex := pos - word.length }

/-- Splitting of a text into blank-delimited words: the text left, the
offset reached, and the word being read, reversed. -/
def demoScan : List Char → Nat → List Char → List Token
  | [], pos, word => if word = [] then [] else [demoToken word pos]
  | c :: cs, pos, word =>
    if c = ' ' then
      if word = [] then demoScan cs (pos + 1) []
      else demoToken word pos :: demoScan cs (pos + 1) []
    else demoScan cs (pos + 1) (c :: word)

/-- A lexer for blank-delimited words, every text being accepted. -/
def demoLex (text : List Char) : Lexer :=
  { source := text, tokens := demoScan text 0 [], lexError := none }

/-- An engine for examples: the lexer splits the text at blanks, an
expression is the list of the words of the body, its value is their
number. -/
def demo : Engine (List String) Unit :=
  { lex := fun text => .ok (demoLex text)
    ParseFullExpression := fun lexer _ _ _ =>
      if lexer.tokens = [] then .error (lexer.Fail "Expression expected.")
      else .ok (lexer.tokens.map (fun t => t.payload))
    Evaluate := fun _ e => .ok { isDouble := false, doubleValue := (), intValue := e.length }
    Print := fun _ e => " ".intercalate e
    formatDouble := fun _ => "0.000000"
    formatInt := fun i => toString i
    formatHex := fun i => toString i }

/-- The text `sq ( n ) => n * n`. -/
def sampleText : List Char :=
  ['s', 'q', ' ', '(', ' ', 'n', ' ', ')', ' ', '=', '>', ' ', 'n', ' ', '*', ' ', 'n']

/-- The definition built from `sampleText`. -/
def sampleDefinition : Definition (List String) :=
  { name := "sq", isFunction := true, paramNames := ["n"], expression := some ["n", "*", "n"] }

/-- The state after `sq ( n ) => n * n` has been entered into the empty
definition list. -/
def sampleWorld : World (List String) :=
  (AddDefinition demo World.empty (demoLex sampleText)).2

/-- A line of `2 ^ 32` characters, one more than a `StringRef` can hold on
the 64-bit platform. -/
def longLine : List Char := List.replicate (2 ^ 32) 'a'

/-! ## Lexers on the same tokens -/

/-- The platforms considered: `size_t` has at least 32 bits (so `UINT32_MAX`
converts to it unchanged) and can hold the header and a terminator. -/
def Platform.Valid (P : Platform) : Prop :=
  32 ≤ P.sizeBits ∧ P.headerSize + 2 ≤ 2 ^ P.sizeBits

/-- The memory after constructing an object from `ab`, copying it, assigning
the copy to itself and destroying the original. -/
def sampleMemory : Memory :=
  { blocks := [some { refCount_ := 1, length_ := 2, text_ := ['a', 'b', NUL] }]
    refs := [none, some 0] }

/-! ## Theorems -/

theorem two_pow_32_le (P : Platform) (h : 32 ≤ P.sizeBits) : 2 ^ 32 ≤ 2 ^ P.sizeBits :=
  Nat.pow_le_pow_right (by decide) h

theorem maxLength_eq (P : Platform) (hP : P.Valid) :
    maxLength P = min UINT32_MAX (SIZE_MAX P / sizeofChar - 1 - P.headerSize) := by
  obtain ⟨h32, hh⟩ := hP
  have h1 := two_pow_32_le P h32
  have hpos : 0 < 2 ^ P.sizeBits := Nat.two_pow_pos _
  unfold maxLength subSize toSize SIZE_MAX UINT32_MAX sizeofChar
  generalize 2 ^ P.sizeBits = M at *
  have e1 : (2 ^ 32 - 1) % M = 2 ^ 32 - 1 := Nat.mod_eq_of_lt (by omega)
  have e2 : ((M - 1) / 1) % M = M - 1 := by
    rw [Nat.div_one]; exact Nat.mod_eq_of_lt (by omega)
  have e3 : 1 % M = 1 := Nat.mod_eq_of_lt (by omega)
  have e4 : P.headerSize % M = P.headerSize := Nat.mod_eq_of_lt (by omega)
  have e5 : (M - 1 + M - 1) % M = M - 2 := by
    have : M - 1 + M - 1 = (M - 2) + M := by omega
    rw [this, Nat.add_mod_right]; exact Nat.mod_eq_of_lt (by omega)
  have e6 : (M - 2) % M = M - 2 := Nat.mod_eq_of_lt (by omega)
  have e7 : (M - 2 + M - P.headerSize) % M = M - 2 - P.headerSize := by
    have : M - 2 + M - P.headerSize = (M - 2 - P.headerSize) + M := by omega
    rw [this, Nat.add_mod_right]; exact Nat.mod_eq_of_lt (by omega)
  rw [e1, e2, e3, e5, e6, e4, e7, Nat.div_one]
  congr 1

theorem bufferSize_eq (P : Platform) (hP : P.Valid) (length : Nat)
    (h : length ≤ maxLength P) :
    P.headerSize + (length + 1) * sizeofChar ≤ SIZE_MAX P ∧
      bufferSize P length = P.headerSize + (length + 1) * sizeofChar := by
  rw [maxLength_eq P hP] at h
  obtain ⟨_, hh⟩ := hP
  unfold bufferSize addSize mulSize toSize
  unfold SIZE_MAX sizeofChar at *
  rw [Nat.div_one] at h
  generalize 2 ^ P.sizeBits = M at *
  have h2 : length ≤ M - 1 - 1 - P.headerSize := le_trans h (Nat.min_le_right _ _)
  have e1 : (length + 1) % M = length + 1 := Nat.mod_eq_of_lt (by omega)
  have e2 : (length + 1) % M = length + 1 := e1
  constructor
  · omega
  · rw [e1, Nat.mul_one, e2]; exact Nat.mod_eq_of_lt (by omega)

theorem length_lt_of_le_maxLength (P : Platform) (hP : P.Valid) (length : Nat)
    (h : length ≤ maxLength P) : length < 2 ^ 32 := by
  rw [maxLength_eq P hP] at h
  have h2 : length ≤ UINT32_MAX := le_trans h (Nat.min_le_left _ _)
  unfold UINT32_MAX at h2
  omega

theorem NewData_ok (P : Platform) (malloc : Nat → Bool) (source : List Char)
    (length : Nat) (d : Data) (h : NewData P malloc source length = some (.ok d)) :
    length ≤ maxLength P ∧ malloc (bufferSize P length) = true ∧
      d = { refCount_ := 0, length_ := length % 2 ^ 32, text_ := source.take length ++ [NUL] } := by
  unfold NewData at h
  by_cases h1 : length > maxLength P
  · rw [if_pos h1] at h
    cases h
  · rw [if_neg h1] at h
    by_cases h2 : malloc (bufferSize P length) = true
    · rw [if_pos h2] at h
      simp only [Option.some.injEq, Except.ok.injEq] at h
      exact ⟨Nat.not_lt.mp h1, h2, h.symm⟩
    · rw [if_neg h2] at h
      cases h

/-- C5. Whatever `malloc` does, `NewData` throws exactly when
`length > maxLength`, and then throws `std::bad_alloc`; `maxLength` is
`min(UINT32_MAX, SIZE_MAX / sizeof(char) - 1 - offsetof(Data, text_))`
without any wrap-around. For every length up to `maxLength` the length is
below `2 ^ 32`, the buffer size `headerSize + (length + 1) * sizeof(char)`
does not exceed `SIZE_MAX` and is what the `size_t` computation passes to
`malloc`, and a block is returned exactly when `malloc` returns one for that
size (a null pointer is dereferenced unchecked: the behaviour is undefined).
A block that is returned stores the length unchanged, the first `length`
characters of the input, `0` at index `length`, and the count `0`. -/
theorem C5_NewData (P : Platform) (hP : P.Valid) (malloc : Nat → Bool)
    (source : List Char) (length : Nat) (hsrc : length ≤ source.length) :
    maxLength P = min UINT32_MAX (SIZE_MAX P / sizeofChar - 1 - P.headerSize) ∧
    ((∃ e, NewData P malloc source length = some (.error e)) ↔ length > maxLength P) ∧
    (length > maxLength P → NewData P malloc source length = some (.error .bad_alloc)) ∧
    (length ≤ maxLength P →
      length < 2 ^ 32 ∧
      P.headerSize + (length + 1) * sizeofChar ≤ SIZE_MAX P ∧
      bufferSize P length = P.headerSize + (length + 1) * sizeofChar ∧
      ((∃ d, NewData P malloc source length = some (.ok d)) ↔
        malloc (P.headerSize + (length + 1) * sizeofChar) = true) ∧
      (malloc (P.headerSize + (length + 1) * sizeofChar) = false →
        NewData P malloc source length = none)) ∧
    (∀ d, NewData P malloc source length = some (.ok d) →
      length ≤ maxLength P ∧
      d.refCount_ = 0 ∧
      d.length_ = length ∧
      d.text_.length = length + 1 ∧
      d.text_.take length = source.take length ∧
      d.text_[length]? = some NUL) := by
  have hl : (source.take length).length = length := by
    simp [List.length_take, Nat.min_eq_left hsrc]
  refine ⟨maxLength_eq P hP, ?_, ?_, ?_, ?_⟩
  · unfold NewData
    constructor
    · rintro ⟨e, he⟩
      by_contra hc
      rw [if_neg hc] at he
      by_cases h2 : malloc (bufferSize P length) = true
      · rw [if_pos h2] at he
        cases he
      · rw [if_neg h2] at he
        cases he
    · intro h
      exact ⟨_, if_pos h⟩
  · intro h
    exact if_pos h
  · intro h
    have hlt := length_lt_of_le_maxLength P hP length h
    obtain ⟨hb1, hb2⟩ := bufferSize_eq P hP length h
    refine ⟨hlt, hb1, hb2, ?_, ?_⟩
    · rw [← hb2]
      constructor
      · rintro ⟨d, hd⟩
        exact (NewData_ok P malloc source length d hd).2.1
      · intro hm
        unfold NewData
        rw [if_neg (Nat.not_lt.mpr h), if_pos hm]
        exact ⟨_, rfl⟩
    · rw [← hb2]
      intro hm
      unfold NewData
      rw [if_neg (Nat.not_lt.mpr h), hm]
      rfl
  · intro d hd
    obtain ⟨h1, _, h3⟩ := NewData_ok P malloc source length d hd
    have hlt := length_lt_of_le_maxLength P hP length h1
    subst h3
    refine ⟨h1, rfl, Nat.mod_eq_of_lt hlt, ?_, ?_, ?_⟩
    · simp [List.length_take, Nat.min_eq_left hsrc]
    · rw [List.take_append_of_le_length (by omega)]
      rw [List.take_of_length_le (by omega)]
    · show (source.take length ++ [NUL])[length]? = some NUL
      rw [List.getElem?_append_right (by omega)]
      simp [hl]

/-- C5, witness: the two-character text `ab` on the 64-bit platform, with an
allocator that returns a block. -/
theorem C5_NewData_witness :
    x64.Valid ∧ 2 ≤ ['a', 'b'].length ∧
    NewData x64 (fun _ => true) ['a', 'b'] 2
      = some (.ok { refCount_ := 0, length_ := 2, text_ := ['a', 'b', NUL] }) ∧
    ((∃ e, NewData x64 (fun _ => true) ['a', 'b'] 2 = some (.error e)) ↔ 2 > maxLength x64) :=
  ⟨by unfold Platform.Valid x64; decide, by decide, by rfl,
    (C5_NewData x64 (by unfold Platform.Valid x64; decide) (fun _ => true) ['a', 'b'] 2
      (by decide)).2.1⟩

/-! ### Reference counting: the invariant -/

theorem count_set_getElem? (l : List (Option Nat)) (i : Nat) (old new a : Option Nat)
    (h : l[i]? = some old) :
    (l.set i new).count a + (if old = a then 1 else 0)
      = l.count a + (if new = a then 1 else 0) := by
  induction l generalizing i with
  | nil => simp at h
  | cons x xs ih =>
    cases i with
    | zero =>
      simp only [List.getElem?_cons_zero, Option.some.injEq] at h
      subst h
      simp only [List.set_cons_zero, List.count_cons, beq_iff_eq]
      omega
    | succ j =>
      simp only [List.getElem?_cons_succ] at h
      have := ih j h
      simp only [List.set_cons_succ, List.count_cons]
      omega

theorem handles_pos_of_ref (m : Memory) (h p : Nat) (hp : m.refs[h]? = some (some p)) :
    0 < m.handles p :=
  List.count_pos_iff.mpr (List.getElem?_mem hp)

theorem block_of_ref (m : Memory) (hI : m.Inv) (h p : Nat)
    (hp : m.refs[h]? = some (some p)) :
    ∃ d, m.blocks[p]? = some (some d) ∧ d.refCount_ = m.handles p := by
  have hpos := handles_pos_of_ref m h p hp
  by_cases hex : ∃ d, m.blocks[p]? = some (some d)
  · obtain ⟨d, hd⟩ := hex
    exact ⟨d, hd, (hI.1 p d hd).1⟩
  · have := hI.2 p (fun d hd => hex ⟨d, hd⟩)
    omega

theorem dec_mod (M h : Nat) (h1 : 0 < h) (h2 : h < M) : (h + M - 1) % M = h - 1 := by
  have : h + M - 1 = (h - 1) + M := by omega
  rw [this, Nat.add_mod_right]
  exact Nat.mod_eq_of_lt (by omega)

theorem inc_dec_mod (M h : Nat) (h1 : 0 < h) (h2 : h < M) :
    ((h + 1) % M + M - 1) % M = h := by
  by_cases hc : h + 1 < M
  · rw [Nat.mod_eq_of_lt hc]
    have : h + 1 + M - 1 = h + M := by omega
    rw [this, Nat.add_mod_right]
    exact Nat.mod_eq_of_lt h2
  · have hM : h + 1 = M := by omega
    rw [hM, Nat.mod_self, Nat.zero_add]
    exact Nat.mod_eq_of_lt (by omega) |>.trans (by omega)

theorem AddRef_eq (P : Platform) (m : Memory) (p : Nat) (d : Data)
    (hd : m.blocks[p]? = some (some d)) :
    AddRef P m p = some { m with
      blocks := (m.blocks.set p
        (some { d with refCount_ := (d.refCount_ + 1) % 2 ^ P.countBits })) } := by
  unfold AddRef
  rw [hd]

theorem Release_eq (P : Platform) (m : Memory) (p : Nat) (d : Data)
    (hd : m.blocks[p]? = some (some d)) :
    Release P m p = some { m with
      blocks := (m.blocks.set p
        (if (d.refCount_ + 2 ^ P.countBits - 1) % 2 ^ P.countBits = 0 then none
          else some { d with
            refCount_ := (d.refCount_ + 2 ^ P.countBits - 1) % 2 ^ P.countBits })) } := by
  unfold Release
  rw [hd]
  by_cases h : (d.refCount_ + 2 ^ P.countBits - 1) % 2 ^ P.countBits = 0 <;> simp [h]

theorem Inv_init : Memory.Inv { blocks := [], refs := [] } := by
  constructor
  · intro p d h
    simp at h
  · intro p _
    simp [Memory.handles]

theorem fits_init (P : Platform) : Memory.fits P { blocks := [], refs := [] } := by
  intro p
  simp only [Memory.handles, List.count_nil]
  exact Nat.two_pow_pos _

theorem blocks_lt_of_some (m : Memory) (p : Nat) (x : Option Data)
    (h : m.blocks[p]? = some x) : p < m.blocks.length := by
  obtain ⟨hlt, _⟩ := List.getElem?_eq_some.mp h
  exact hlt

theorem set_eq_self_of_getElem? {α : Type} (l : List α) (i : Nat) (a : α)
    (h : l[i]? = some a) : l.set i a = l := by
  induction l generalizing i with
  | nil => simp at h
  | cons x xs ih =>
    cases i with
    | zero =>
      simp only [List.getElem?_cons_zero, Option.some.injEq] at h
      subst h
      simp
    | succ j =>
      simp only [List.getElem?_cons_succ] at h
      simp [ih j h]

/-! #### What each operation does -/

/-- The copy constructor, in a state satisfying the invariant: the count of
the block of `rhs` goes up by one, and the new object points to it. -/
theorem copy_eq (P : Platform) (m : Memory) (hI : m.Inv) (rhs p : Nat)
    (hp : m.refs[rhs]? = some (some p)) :
    ∃ d, m.blocks[p]? = some (some d) ∧ d.refCount_ = m.handles p ∧
      StringRef.copy P m rhs = some
        { blocks := m.blocks.set p
            (some { d with refCount_ := (m.handles p + 1) % 2 ^ P.countBits })
          refs := m.refs ++ [some p] } := by
  obtain ⟨d, hd, hrc⟩ := block_of_ref m hI rhs p hp
  refine ⟨d, hd, hrc, ?_⟩
  unfold StringRef.copy
  rw [hp]
  simp only [AddRef_eq P m p d hd, hrc]

/-- The destructor, in a state satisfying the invariant whose counters hold
the numbers of live objects: the object is dead afterwards, and its block is
freed if the object was the last one pointing to it, and else has its count
lowered by one. -/
theorem destroy_eq (P : Platform) (m : Memory) (hI : m.Inv) (hF : m.fits P) (self p : Nat)
    (hp : m.refs[self]? = some (some p)) :
    ∃ d, m.blocks[p]? = some (some d) ∧ d.refCount_ = m.handles p ∧
      StringRef.destroy P m self = some
        { blocks := m.blocks.set p
            (if m.handles p = 1 then none
              else some { d with refCount_ := m.handles p - 1 })
          refs := m.refs.set self none } := by
  obtain ⟨d, hd, hrc⟩ := block_of_ref m hI self p hp
  have hpos := handles_pos_of_ref m self p hp
  have hdec := dec_mod (2 ^ P.countBits) (m.handles p) hpos (hF p)
  refine ⟨d, hd, hrc, ?_⟩
  unfold StringRef.destroy
  rw [hp]
  simp only [Release_eq P m p d hd, hrc, hdec]
  by_cases h1 : m.handles p = 1
  · have h0 : m.handles p - 1 = 0 := by omega
    simp only [h1, h0, if_true]
  · have h0 : ¬ (m.handles p - 1 = 0) := by omega
    simp only [h1, h0, if_false]

/-- Assignment between two objects that share a block, in particular
self-assignment, changes nothing. -/
theorem assign_same (P : Platform) (m : Memory) (hI : m.Inv) (hF : m.fits P)
    (self rhs p : Nat)
    (hs : m.refs[self]? = some (some p)) (hr : m.refs[rhs]? = some (some p)) :
    StringRef.assign P m self rhs = some m := by
  obtain ⟨d, hd, hrc⟩ := block_of_ref m hI self p hs
  have hpos := handles_pos_of_ref m self p hs
  have hlt := blocks_lt_of_some m p _ hd
  have hmod := inc_dec_mod (2 ^ P.countBits) (m.handles p) hpos (hF p)
  unfold StringRef.assign
  rw [hs, hr]
  simp only [AddRef_eq P m p d hd]
  have h1 : ({ m with
      blocks := (m.blocks.set p
        (some { d with refCount_ := (d.refCount_ + 1) % 2 ^ P.countBits })) } :
        Memory).blocks[p]?
      = some (some { d with refCount_ := (d.refCount_ + 1) % 2 ^ P.countBits }) := by
    simp [List.getElem?_set, hlt]
  simp only [Release_eq P _ p _ h1]
  simp only [hrc, hmod]
  have hne : ¬ (m.handles p = 0) := by omega
  simp only [hne, if_false, List.set_set]
  have hd2 : m.blocks[p]? = some (some
      { refCount_ := m.handles p, length_ := d.length_, text_ := d.text_ }) := by
    rw [hd, ← hrc]
  rw [set_eq_self_of_getElem? m.blocks p _ hd2,
    set_eq_self_of_getElem? m.refs self (some p) hs]

/-- Assignment between objects with different blocks: the count of the block
of `rhs` goes up by one, the block that `self` pointed to is freed if `self`
was the last object pointing to it and else has its count lowered by one,
and `self` points to the block of `rhs`. -/
theorem assign_ne (P : Platform) (m : Memory) (hI : m.Inv) (hF : m.fits P)
    (self rhs p r : Nat) (hpr : p ≠ r)
    (hs : m.refs[self]? = some (some p)) (hr : m.refs[rhs]? = some (some r)) :
    ∃ dp dr, m.blocks[p]? = some (some dp) ∧ m.blocks[r]? = some (some dr) ∧
      dp.refCount_ = m.handles p ∧ dr.refCount_ = m.handles r ∧
      StringRef.assign P m self rhs = some
        { blocks := (m.blocks.set r
              (some { dr with refCount_ := (m.handles r + 1) % 2 ^ P.countBits })).set p
            (if m.handles p = 1 then none
              else some { dp with refCount_ := m.handles p - 1 })
          refs := m.refs.set self (some r) } := by
  obtain ⟨dp, hdp, hrcp⟩ := block_of_ref m hI self p hs
  obtain ⟨dr, hdr, hrcr⟩ := block_of_ref m hI rhs r hr
  have hpos := handles_pos_of_ref m self p hs
  have hdec := dec_mod (2 ^ P.countBits) (m.handles p) hpos (hF p)
  refine ⟨dp, dr, hdp, hdr, hrcp, hrcr, ?_⟩
  unfold StringRef.assign
  rw [hs, hr]
  simp only [AddRef_eq P m r dr hdr]
  have h1 : ({ m with
      blocks := (m.blocks.set r
        (some { dr with refCount_ := (dr.refCount_ + 1) % 2 ^ P.countBits })) } :
        Memory).blocks[p]?
      = some (some dp) := by
    simp [List.getElem?_set, Ne.symm hpr, hdp]
  simp only [Release_eq P _ p _ h1]
  simp only [hrcp, hrcr, hdec]
  by_cases h1 : m.handles p = 1
  · have h0 : m.handles p - 1 = 0 := by omega
    simp only [h1, h0, if_true]
  · have h0 : ¬ (m.handles p - 1 = 0) := by omega
    simp only [h1, h0, if_false]

/-- What a converting constructor does once `NewData` has returned a block. -/
theorem ofData_ok (P : Platform) (m : Memory) (d : Data) :
    StringRef.ofData P m (some (.ok d)) = some (.ok
      { blocks := m.blocks ++
          [some { d with refCount_ := (d.refCount_ + 1) % 2 ^ P.countBits }]
        refs := m.refs ++ [some m.blocks.length] }) := by
  unfold StringRef.ofData
  have h1 : ({ m with blocks := m.blocks ++ [some d] } : Memory).blocks[m.blocks.length]?
      = some (some d) := by simp
  simp only [AddRef_eq P _ _ d h1]
  simp

/-! #### The invariant is kept -/

theorem copy_live (P : Platform) (m m1 : Memory) (rhs : Nat)
    (h : StringRef.copy P m rhs = some m1) : ∃ p, m.refs[rhs]? = some (some p) := by
  unfold StringRef.copy at h
  split at h
  · exact ⟨_, by assumption⟩
  · cases h

theorem destroy_live (P : Platform) (m m1 : Memory) (self : Nat)
    (h : StringRef.destroy P m self = some m1) : ∃ p, m.refs[self]? = some (some p) := by
  unfold StringRef.destroy at h
  split at h
  · exact ⟨_, by assumption⟩
  · cases h

theorem assign_live (P : Platform) (m m1 : Memory) (self rhs : Nat)
    (h : StringRef.assign P m self rhs = some m1) :
    ∃ p r, m.refs[self]? = some (some p) ∧ m.refs[rhs]? = some (some r) := by
  unfold StringRef.assign at h
  split at h
  · exact ⟨_, _, by assumption, by assumption⟩
  · cases h

theorem copy_Inv (P : Platform) (m m1 : Memory) (hI : m.Inv) (hF1 : m1.fits P) (rhs : Nat)
    (h : StringRef.copy P m rhs = some m1) : m1.Inv := by
  obtain ⟨p, hp⟩ := copy_live P m m1 rhs h
  obtain ⟨d, hd, hrc, heq⟩ := copy_eq P m hI rhs p hp
  rw [heq] at h
  cases h
  have hlt := blocks_lt_of_some m p _ hd
  have hb := hF1 p
  simp only [Memory.handles, List.count_append, List.count_singleton, beq_iff_eq,
    if_true] at hb
  constructor
  · intro q dq hq
    simp only [Memory.handles, List.count_append, List.count_singleton, beq_iff_eq,
      Option.some.injEq] at *
    by_cases hqp : p = q
    · subst hqp
      simp only [List.getElem?_set, if_true, hlt, Option.some.injEq] at hq
      subst hq
      simp only [if_true]
      constructor
      · exact Nat.mod_eq_of_lt hb
      · omega
    · simp only [List.getElem?_set, hqp, if_false] at hq
      have := hI.1 q dq hq
      simp only [Memory.handles] at this
      simp only [hqp, if_false, Nat.add_zero]
      exact this
  · intro q hq
    simp only [Memory.handles, List.count_append, List.count_singleton, beq_iff_eq,
      Option.some.injEq] at *
    by_cases hqp : p = q
    · subst hqp
      exact absurd (by simp [List.getElem?_set, hlt])
        (hq { d with refCount_ := (m.refs.count (some p) + 1) % 2 ^ P.countBits })
    · simp only [List.getElem?_set, hqp, if_false] at hq
      have := hI.2 q hq
      simp only [Memory.handles] at this
      simp [hqp, this]

theorem destroy_Inv (P : Platform) (m m1 : Memory) (hI : m.Inv) (hF : m.fits P) (self : Nat)
    (h : StringRef.destroy P m self = some m1) : m1.Inv := by
  obtain ⟨p, hp⟩ := destroy_live P m m1 self h
  obtain ⟨d, hd, hrc, heq⟩ := destroy_eq P m hI hF self p hp
  rw [heq] at h
  cases h
  have hlt := blocks_lt_of_some m p _ hd
  have hpos := handles_pos_of_ref m self p hp
  have hcnt : ∀ q, (m.refs.set self none).count (some q) + (if p = q then 1 else 0)
      = m.refs.count (some q) := by
    intro q
    have := count_set_getElem? m.refs self (some p) none (some q) hp
    simpa using this
  simp only [Memory.handles] at hrc hpos
  constructor
  · intro q dq hq
    have hc := hcnt q
    simp only [Memory.handles] at *
    by_cases hqp : p = q
    · subst hqp
      simp only [List.getElem?_set, if_true, hlt, Option.some.injEq] at hq
      simp only [if_true, if_false] at hc
      by_cases hz : m.refs.count (some p) = 1
      · simp [hz] at hq
      · simp only [hz, if_false, Option.some.injEq] at hq
        subst hq
        simp only
        constructor <;> omega
    · simp only [List.getElem?_set, hqp, if_false] at hq
      have := hI.1 q dq hq
      simp only [Memory.handles] at this
      simp only [Option.some.injEq, hqp, if_false] at hc
      simp only [Nat.add_zero] at hc
      rw [hc]
      exact this
  · intro q hq
    have hc := hcnt q
    simp only [Memory.handles] at *
    by_cases hqp : p = q
    · subst hqp
      simp only [if_true, if_false] at hc
      by_cases hz : m.refs.count (some p) = 1
      · omega
      · exact absurd (by simp [List.getElem?_set, hlt, hz])
          (hq { d with refCount_ := m.refs.count (some p) - 1 })
    · simp only [List.getElem?_set, hqp, if_false] at hq
      have := hI.2 q hq
      simp only [Memory.handles] at this
      simp only [Option.some.injEq, hqp, if_false] at hc
      omega

theorem assign_Inv (P : Platform) (m m1 : Memory) (hI : m.Inv) (hF : m.fits P)
    (hF1 : m1.fits P) (self rhs : Nat)
    (h : StringRef.assign P m self rhs = some m1) : m1.Inv := by
  obtain ⟨p, r, hs, hr⟩ := assign_live P m m1 self rhs h
  by_cases hpr : p = r
  · subst hpr
    rw [assign_same P m hI hF self rhs p hs hr] at h
    cases h
    exact hI
  obtain ⟨dp, dr, hdp, hdr, hrcp, hrcr, heq⟩ := assign_ne P m hI hF self rhs p r hpr hs hr
  rw [heq] at h
  cases h
  have hltp := blocks_lt_of_some m p _ hdp
  have hltr := blocks_lt_of_some m r _ hdr
  have hposp := handles_pos_of_ref m self p hs
  have hcnt : ∀ q, (m.refs.set self (some r)).count (some q) + (if p = q then 1 else 0)
      = m.refs.count (some q) + (if r = q then 1 else 0) := by
    intro q
    have := count_set_getElem? m.refs self (some p) (some r) (some q) hs
    simpa using this
  have hb := hF1 r
  simp only [Memory.handles] at hrcp hrcr hposp hb
  have hrp : ¬ r = p := fun e => hpr e.symm
  have hcr := hcnt r
  simp only [hpr, if_false, if_true, Nat.add_zero] at hcr
  have hmod : (m.refs.count (some r) + 1) % 2 ^ P.countBits = m.refs.count (some r) + 1 :=
    Nat.mod_eq_of_lt (by omega)
  constructor
  · intro q dq hq
    have hc := hcnt q
    simp only [Memory.handles] at *
    by_cases hqp : p = q
    · subst hqp
      simp only [List.getElem?_set, if_true, hltp, List.length_set, Option.some.injEq] at hq
      simp only [if_true, hrp, if_false] at hc
      by_cases hz : m.refs.count (some p) = 1
      · simp [hz] at hq
      · simp only [hz, if_false, Option.some.injEq] at hq
        subst hq
        simp only
        constructor <;> omega
    · by_cases hqr : r = q
      · subst hqr
        simp only [List.getElem?_set, hqp, if_false, if_true, hltr, Option.some.injEq] at hq
        subst hq
        simp only [hmod]
        constructor <;> omega
      · simp only [List.getElem?_set, hqp, hqr, if_false] at hq
        have := hI.1 q dq hq
        simp only [Memory.handles] at this
        simp only [hqp, hqr, if_false, Nat.add_zero] at hc
        rw [hc]
        exact this
  · intro q hq
    have hc := hcnt q
    simp only [Memory.handles] at *
    by_cases hqp : p = q
    · subst hqp
      simp only [if_true, hrp, if_false] at hc
      by_cases hz : m.refs.count (some p) = 1
      · omega
      · exact absurd (by simp [List.getElem?_set, hltp, hz])
          (hq { dp with refCount_ := m.refs.count (some p) - 1 })
    · by_cases hqr : r = q
      · subst hqr
        exact absurd (by simp [List.getElem?_set, hqp, hltr])
          (hq { dr with refCount_ := (m.refs.count (some r) + 1) % 2 ^ P.countBits })
      · simp only [List.getElem?_set, hqp, hqr, if_false] at hq
        have := hI.2 q hq
        simp only [Memory.handles] at this
        simp only [hqp, hqr, if_false] at hc
        omega

theorem ofData_Inv (P : Platform) (m m1 : Memory) (hI : m.Inv) (hF1 : m1.fits P)
    (r : Option (Except Exn Data))
    (hr : ∀ d, r = some (.ok d) → d.refCount_ = 0)
    (h : StringRef.ofData P m r = some (.ok m1)) : m1.Inv := by
  match r, hr, h with
  | none, _, h => simp [StringRef.ofData] at h
  | some (.error e), _, h => simp [StringRef.ofData] at h
  | some (.ok d), hr, h =>
    have hd0 := hr d rfl
    rw [ofData_ok] at h
    cases h
    have hfresh : m.handles m.blocks.length = 0 :=
      hI.2 _ (fun d hd => by simp at hd)
    have hb := hF1 m.blocks.length
    simp only [Memory.handles, List.count_append, List.count_singleton, beq_iff_eq,
      if_true] at hb hfresh
    have hmod : (0 + 1) % 2 ^ P.countBits = 1 := Nat.mod_eq_of_lt (by omega)
    constructor
    · intro q dq hq
      simp only [Memory.handles, List.count_append, List.count_singleton, beq_iff_eq,
        Option.some.injEq] at *
      by_cases hqp : m.blocks.length = q
      · subst hqp
        simp only [List.getElem?_concat_length, Option.some.injEq] at hq
        subst hq
        simp only [if_true, hfresh, hd0, hmod]
        constructor <;> trivial
      · have hlt : q < m.blocks.length ∨ m.blocks.length < q := by omega
        rcases hlt with hlt | hlt
        · rw [List.getElem?_append_left hlt] at hq
          have := hI.1 q dq hq
          simp only [Memory.handles] at this
          simp only [hqp, if_false, Nat.add_zero]
          exact this
        · rw [List.getElem?_eq_none (by simp; omega)] at hq
          cases hq
    · intro q hq
      simp only [Memory.handles, List.count_append, List.count_singleton, beq_iff_eq,
        Option.some.injEq] at *
      by_cases hqp : m.blocks.length = q
      · subst hqp
        exact absurd (by simp)
          (hq { d with refCount_ := (d.refCount_ + 1) % 2 ^ P.countBits })
      · have hold : m.refs.count (some q) = 0 := by
          apply hI.2 q
          intro d2 hd2
          have hlt := blocks_lt_of_some m q _ hd2
          exact hq d2 (by rw [List.getElem?_append_left hlt]; exact hd2)
        simp [hqp, hold]

theorem NewData_refCount (P : Platform) (malloc : Nat → Bool) (source : List Char)
    (length : Nat) (d : Data)
    (h : NewData P malloc source length = some (.ok d)) : d.refCount_ = 0 := by
  rw [(NewData_ok P malloc source length d h).2.2]

theorem map_ok_eq_some (o : Option Memory) (m1 : Memory)
    (h : o.map (Except.ok : Memory → Except Exn Memory) = some (.ok m1)) : o = some m1 := by
  cases o with
  | none => cases h
  | some x =>
    simp only [Option.map_some', Option.some.injEq, Except.ok.injEq] at h
    rw [h]

theorem step_Inv (P : Platform) (malloc : Nat → Bool) (m m1 : Memory) (op : Op)
    (hI : m.Inv) (hF : m.fits P) (hF1 : m1.fits P)
    (h : m.step P malloc op = some (.ok m1)) : m1.Inv := by
  cases op with
  | ofCStr text =>
    exact ofData_Inv P m m1 hI hF1 _ (fun d hd => NewData_refCount P malloc _ _ d hd) h
  | ofSpan text =>
    exact ofData_Inv P m m1 hI hF1 _ (fun d hd => NewData_refCount P malloc _ _ d hd) h
  | copy rhs =>
    exact copy_Inv P m m1 hI hF1 rhs (map_ok_eq_some _ _ h)
  | assign self rhs =>
    exact assign_Inv P m m1 hI hF hF1 self rhs (map_ok_eq_some _ _ h)
  | destroy self =>
    exact destroy_Inv P m m1 hI hF self (map_ok_eq_some _ _ h)

theorem Reachable_fits (P : Platform) (m : Memory) (h : Memory.Reachable P m) :
    m.fits P := by
  cases h with
  | init => exact fits_init P
  | step m0 _ op malloc _ _ hF => exact hF

theorem Reachable_Inv (P : Platform) (m : Memory) (h : Memory.Reachable P m) : m.Inv := by
  induction h with
  | init => exact Inv_init
  | step m m1 op malloc hR hs hF ih =>
    exact step_Inv P malloc m m1 op ih (Reachable_fits P m hR) hF hs

theorem fits_of_length (P : Platform) (m : Memory)
    (h : m.refs.length < 2 ^ P.countBits) : m.fits P := by
  intro p
  exact Nat.lt_of_le_of_lt (List.count_le_length _ _) h

/-- No operation makes more than one object. -/
theorem step_refs_length (P : Platform) (malloc : Nat → Bool) (m m1 : Memory) (op : Op)
    (hI : m.Inv) (hF : m.fits P) (h : m.step P malloc op = some (.ok m1)) :
    m1.refs.length ≤ m.refs.length + 1 := by
  have key : ∀ (r : Option (Except Exn Data)), StringRef.ofData P m r = some (.ok m1) →
      m1.refs.length ≤ m.refs.length + 1 := by
    intro r hr
    match r, hr with
    | none, hr => simp [StringRef.ofData] at hr
    | some (.error e), hr => simp [StringRef.ofData] at hr
    | some (.ok d), hr =>
      rw [ofData_ok] at hr
      cases hr
      simp
  cases op with
  | ofCStr text => exact key _ h
  | ofSpan text => exact key _ h
  | copy rhs =>
    have h2 := map_ok_eq_some _ _ h
    obtain ⟨p, hp⟩ := copy_live P m m1 rhs h2
    obtain ⟨d, _, _, heq⟩ := copy_eq P m hI rhs p hp
    rw [heq] at h2
    cases h2
    simp
  | assign self rhs =>
    have h2 := map_ok_eq_some _ _ h
    obtain ⟨p, r, hs, hr⟩ := assign_live P m m1 self rhs h2
    by_cases hpr : p = r
    · subst hpr
      rw [assign_same P m hI hF self rhs p hs hr] at h2
      cases h2
      simp
    · obtain ⟨dp, dr, _, _, _, _, heq⟩ := assign_ne P m hI hF self rhs p r hpr hs hr
      rw [heq] at h2
      cases h2
      simp
  | destroy self =>
    have h2 := map_ok_eq_some _ _ h
    obtain ⟨p, hp⟩ := destroy_live P m m1 self h2
    obtain ⟨d, _, _, heq⟩ := destroy_eq P m hI hF self p hp
    rw [heq] at h2
    cases h2
    simp

/-- A run of fewer operations than a counter can count stays among the
reachable states. -/
theorem run_Reachable (P : Platform) (malloc : Nat → Bool) (ops : List Op) (m m1 : Memory)
    (h : Memory.Reachable P m) (hlen : m.refs.length + ops.length < 2 ^ P.countBits)
    (hr : m.run P malloc ops = some m1) : Memory.Reachable P m1 := by
  induction ops generalizing m with
  | nil =>
    simp only [Memory.run, Option.some.injEq] at hr
    exact hr ▸ h
  | cons op ops ih =>
    simp only [Memory.run] at hr
    simp only [List.length_cons] at hlen
    split at hr
    · rename_i m2 hs
      have hl := step_refs_length P malloc m m2 op (Reachable_Inv P m h)
        (Reachable_fits P m h) hs
      have hF2 : m2.fits P := fits_of_length P m2 (by omega)
      exact ih m2 (Memory.Reachable.step m m2 op malloc h hs hF2) (by omega) hr
    · exact ih m h (by omega) hr
    · cases hr

/-! #### Defined behaviour -/

theorem not_starved_of_none (P : Platform) (malloc : Nat → Bool) (op : Op)
    (h : op.length? = none) : ¬ op.starved P malloc := by
  rintro ⟨n, hn, _⟩
  rw [h] at hn
  cases hn

/-- A converting constructor has defined behaviour exactly when the allocator
does not fail it. -/
theorem ofData_defined (P : Platform) (malloc : Nat → Bool) (m : Memory)
    (src : List Char) (n : Nat) :
    (∃ r, StringRef.ofData P m (NewData P malloc src n) = some r) ↔
      ¬ (n ≤ maxLength P ∧ malloc (bufferSize P n) = false) := by
  unfold NewData
  by_cases h1 : n > maxLength P
  · rw [if_pos h1]
    constructor
    · rintro _ ⟨h2, _⟩
      omega
    · intro _
      exact ⟨_, rfl⟩
  · rw [if_neg h1]
    by_cases h2 : malloc (bufferSize P n) = true
    · rw [if_pos h2]
      constructor
      · rintro _ ⟨_, h3⟩
        rw [h2] at h3
        cases h3
      · intro _
        exact ⟨_, ofData_ok P m _⟩
    · rw [if_neg h2]
      constructor
      · rintro ⟨r, hr⟩
        simp [StringRef.ofData] at hr
      · intro h3
        exact absurd ⟨Nat.not_lt.mp h1, by simpa using h2⟩ h3

/-- In a reachable state an operation on live objects has defined behaviour,
it completes or (a converting constructor) throws, exactly when the allocator
does not fail it. -/
theorem step_defined (P : Platform) (malloc : Nat → Bool) (m : Memory) (op : Op)
    (hI : m.Inv) (hF : m.fits P) (ha : m.accepts op) :
    (∃ r, m.step P malloc op = some r) ↔ ¬ op.starved P malloc := by
  cases op with
  | ofCStr text =>
    simp only [Memory.step, StringRef.ofCStr]
    rw [ofData_defined]
    simp [Op.starved, Op.length?]
  | ofSpan text =>
    simp only [Memory.step, StringRef.ofSpan]
    rw [ofData_defined]
    simp [Op.starved, Op.length?]
  | copy rhs =>
    obtain ⟨p, hp⟩ := ha
    obtain ⟨d, _, _, heq⟩ := copy_eq P m hI rhs p hp
    exact ⟨fun _ => not_starved_of_none P malloc _ rfl,
      fun _ => ⟨_, by simp only [Memory.step, heq, Option.map_some']; rfl⟩⟩
  | assign self rhs =>
    obtain ⟨⟨p, hp⟩, ⟨r, hr⟩⟩ := ha
    refine ⟨fun _ => not_starved_of_none P malloc _ rfl, fun _ => ?_⟩
    by_cases hpr : p = r
    · subst hpr
      exact ⟨_, by
        simp only [Memory.step, assign_same P m hI hF self rhs p hp hr, Option.map_some']; rfl⟩
    · obtain ⟨dp, dr, _, _, _, _, heq⟩ := assign_ne P m hI hF self rhs p r hpr hp hr
      exact ⟨_, by simp only [Memory.step, heq, Option.map_some']; rfl⟩
  | destroy self =>
    obtain ⟨p, hp⟩ := ha
    obtain ⟨d, _, _, heq⟩ := destroy_eq P m hI hF self p hp
    exact ⟨fun _ => not_starved_of_none P malloc _ rfl,
      fun _ => ⟨_, by simp only [Memory.step, heq, Option.map_some']; rfl⟩⟩

/-- A throwing operation is a converting constructor whose text is too long;
it throws `std::bad_alloc`. -/
theorem step_error (P : Platform) (malloc : Nat → Bool) (m : Memory) (op : Op) (e : Exn)
    (h : m.step P malloc op = some (.error e)) :
    e = .bad_alloc ∧ ∃ n, op.length? = some n ∧ n > maxLength P := by
  have key : ∀ (src : List Char) (n : Nat),
      StringRef.ofData P m (NewData P malloc src n) = some (.error e) →
      e = .bad_alloc ∧ n > maxLength P := by
    intro src n hn
    unfold NewData at hn
    split at hn
    · rename_i hgt
      simp only [StringRef.ofData, Option.some.injEq, Except.error.injEq] at hn
      exact ⟨hn.symm, hgt⟩
    · split at hn
      · rw [ofData_ok] at hn
        cases hn
      · simp [StringRef.ofData] at hn
  cases op with
  | ofCStr text =>
    obtain ⟨h1, h2⟩ := key text (strlen text) h
    exact ⟨h1, _, rfl, h2⟩
  | ofSpan text =>
    obtain ⟨h1, h2⟩ := key text text.length h
    exact ⟨h1, _, rfl, h2⟩
  | copy rhs => simp [Memory.step] at h
  | assign self rhs => simp [Memory.step] at h
  | destroy self => simp [Memory.step] at h

/-- The heap of blocks grows by exactly one block in a converting
constructor and not at all in the other operations. -/
theorem step_blocks_length (P : Platform) (malloc : Nat → Bool) (m m1 : Memory) (op : Op)
    (hI : m.Inv) (hF : m.fits P) (h : m.step P malloc op = some (.ok m1)) :
    m1.blocks.length = m.blocks.length +
      (match op with
        | .ofCStr _ => 1
        | .ofSpan _ => 1
        | _ => 0) := by
  have key : ∀ (r : Option (Except Exn Data)), StringRef.ofData P m r = some (.ok m1) →
      m1.blocks.length = m.blocks.length + 1 := by
    intro r hr
    match r, hr with
    | none, hr => simp [StringRef.ofData] at hr
    | some (.error e), hr => simp [StringRef.ofData] at hr
    | some (.ok d), hr =>
      rw [ofData_ok] at hr
      cases hr
      simp
  cases op with
  | ofCStr text => exact key _ h
  | ofSpan text => exact key _ h
  | copy rhs =>
    have h2 := map_ok_eq_some _ _ h
    obtain ⟨p, hp⟩ := copy_live P m m1 rhs h2
    obtain ⟨d, _, _, heq⟩ := copy_eq P m hI rhs p hp
    rw [heq] at h2
    cases h2
    simp
  | assign self rhs =>
    have h2 := map_ok_eq_some _ _ h
    obtain ⟨p, r, hs, hr⟩ := assign_live P m m1 self rhs h2
    by_cases hpr : p = r
    · subst hpr
      rw [assign_same P m hI hF self rhs p hs hr] at h2
      cases h2
      simp
    · obtain ⟨dp, dr, _, _, _, _, heq⟩ := assign_ne P m hI hF self rhs p r hpr hs hr
      rw [heq] at h2
      cases h2
      simp
  | destroy self =>
    have h2 := map_ok_eq_some _ _ h
    obtain ⟨p, hp⟩ := destroy_live P m m1 self h2
    obtain ⟨d, _, _, heq⟩ := destroy_eq P m hI hF self p hp
    rw [heq] at h2
    cases h2
    simp

theorem Inv_freed_iff (m : Memory) (hI : m.Inv) (p : Nat) (hp : p < m.blocks.length) :
    m.blocks[p]? = some none ↔ m.handles p = 0 := by
  constructor
  · intro h
    exact hI.2 p (fun d hd => by rw [h] at hd; cases hd)
  · intro h
    cases hb : m.blocks[p]? with
    | none =>
      have := List.getElem?_eq_none_iff.mp hb
      omega
    | some x =>
      cases x with
      | none => rfl
      | some d =>
        have := (hI.1 p d hb).2
        omega

/-- What a converting constructor does with `n` characters that `NewData`
accepts and `malloc` has room for. -/
theorem ofData_NewData (P : Platform) (malloc : Nat → Bool) (m : Memory)
    (src : List Char) (n : Nat) (hn : n ≤ maxLength P)
    (hm : malloc (bufferSize P n) = true) :
    StringRef.ofData P m (NewData P malloc src n) = some (.ok
      { blocks := m.blocks ++
          [some { refCount_ := 1 % 2 ^ P.countBits
                  length_ := n % 2 ^ 32
                  text_ := src.take n ++ [NUL] }]
        refs := m.refs ++ [some m.blocks.length] }) := by
  unfold NewData
  rw [if_neg (Nat.not_lt.mpr hn), if_pos hm, ofData_ok]

/-- C7. The state is any memory reached from the empty memory by
constructing, copying, assigning and destroying `StringRef` objects, with an
allocator that may fail at any call, while no block has `2 ^ countBits` or
more live objects. The invariant: the count stored in each unfreed block is
the number of live objects pointing to it; a block has been freed exactly
when no live object points to it; and every live object points to an unfreed
block. Defined behaviour: an operation on live objects touches no freed
block and no null pointer, unless it is a converting constructor for which
`malloc` returns no block; and an operation throws only `std::bad_alloc`,
for a text longer than `maxLength`. What the operations do: a converting
constructor makes one new block with count one, and one new object pointing
to it; the copy constructor makes one new object pointing to the block of
`rhs`, whose count goes up by one; the destructor ends the object, and frees
its block if this was the last object pointing to it, and else lowers the
count by one; `self = rhs` between objects with different blocks makes
`self` point to the block of `rhs`, whose count goes up by one, and frees
the old block of `self` if `self` was the last object pointing to it, and
else lowers its count by one; assignment between objects that share a block,
in particular self-assignment, leaves the whole memory as it was. After any
step a block that was in use is freed exactly when no live object points to
it; copy and assignment add no block. -/
theorem C7_refcount (P : Platform) (m : Memory) (hR : Memory.Reachable P m) :
    (∀ p d, m.blocks[p]? = some (some d) → d.refCount_ = m.handles p) ∧
    (∀ p, p < m.blocks.length → (m.blocks[p]? = some none ↔ m.handles p = 0)) ∧
    (∀ h p : Nat, m.refs[h]? = some (some p) → ∃ d, m.blocks[p]? = some (some d)) ∧
    (∀ malloc op, m.accepts op →
      ((∃ r, m.step P malloc op = some r) ↔ ¬ op.starved P malloc)) ∧
    (∀ malloc op e, m.step P malloc op = some (.error e) →
      e = .bad_alloc ∧ ∃ n, op.length? = some n ∧ n > maxLength P) ∧
    (∀ malloc text, text.length ≤ maxLength P →
      malloc (bufferSize P text.length) = true →
      m.step P malloc (.ofSpan text) = some (.ok
        { blocks := m.blocks ++
            [some { refCount_ := 1 % 2 ^ P.countBits
                    length_ := text.length % 2 ^ 32
                    text_ := text.take text.length ++ [NUL] }]
          refs := m.refs ++ [some m.blocks.length] })) ∧
    (∀ malloc text, strlen text ≤ maxLength P →
      malloc (bufferSize P (strlen text)) = true →
      m.step P malloc (.ofCStr text) = some (.ok
        { blocks := m.blocks ++
            [some { refCount_ := 1 % 2 ^ P.countBits
                    length_ := strlen text % 2 ^ 32
                    text_ := text.take (strlen text) ++ [NUL] }]
          refs := m.refs ++ [some m.blocks.length] })) ∧
    (∀ malloc rhs p, m.refs[rhs]? = some (some p) →
      ∃ d, m.blocks[p]? = some (some d) ∧
        m.step P malloc (.copy rhs) = some (.ok
          { blocks := m.blocks.set p
              (some { d with refCount_ := (m.handles p + 1) % 2 ^ P.countBits })
            refs := m.refs ++ [some p] })) ∧
    (∀ malloc self p, m.refs[self]? = some (some p) →
      ∃ d, m.blocks[p]? = some (some d) ∧
        m.step P malloc (.destroy self) = some (.ok
          { blocks := m.blocks.set p
              (if m.handles p = 1 then none
                else some { d with refCount_ := m.handles p - 1 })
            refs := m.refs.set self none })) ∧
    (∀ malloc self rhs p r, m.refs[self]? = some (some p) →
      m.refs[rhs]? = some (some r) → p ≠ r →
      ∃ dp dr, m.blocks[p]? = some (some dp) ∧ m.blocks[r]? = some (some dr) ∧
        m.step P malloc (.assign self rhs) = some (.ok
          { blocks := (m.blocks.set r
                (some { dr with refCount_ := (m.handles r + 1) % 2 ^ P.countBits })).set p
              (if m.handles p = 1 then none
                else some { dp with refCount_ := m.handles p - 1 })
            refs := m.refs.set self (some r) })) ∧
    (∀ malloc self rhs p, m.refs[self]? = some (some p) →
      m.refs[rhs]? = some (some p) →
      m.step P malloc (.assign self rhs) = some (.ok m)) ∧
    (∀ malloc self, m.live self → m.step P malloc (.assign self self) = some (.ok m)) ∧
    (∀ malloc op m1, m.step P malloc op = some (.ok m1) → m1.fits P →
      ∀ p d, m.blocks[p]? = some (some d) →
        (m1.blocks[p]? = some none ↔ m1.handles p = 0)) ∧
    (∀ malloc rhs m1, m.step P malloc (.copy rhs) = some (.ok m1) →
      m1.blocks.length = m.blocks.length) ∧
    (∀ malloc self rhs m1, m.step P malloc (.assign self rhs) = some (.ok m1) →
      m1.blocks.length = m.blocks.length) := by
  have hI := Reachable_Inv P m hR
  have hF := Reachable_fits P m hR
  refine ⟨fun p d hd => (hI.1 p d hd).1, fun p hp => Inv_freed_iff m hI p hp, ?_,
    fun malloc op ha => step_defined P malloc m op hI hF ha,
    fun malloc op e he => step_error P malloc m op e he,
    fun malloc text hn hm => ofData_NewData P malloc m text _ hn hm,
    fun malloc text hn hm => ofData_NewData P malloc m text _ hn hm,
    ?_, ?_, ?_, ?_, ?_, ?_, ?_, ?_⟩
  · intro h p hp
    obtain ⟨d, hd, _⟩ := block_of_ref m hI h p hp
    exact ⟨d, hd⟩
  · intro malloc rhs p hp
    obtain ⟨d, hd, _, heq⟩ := copy_eq P m hI rhs p hp
    exact ⟨d, hd, by simp only [Memory.step, heq, Option.map_some']⟩
  · intro malloc self p hp
    obtain ⟨d, hd, _, heq⟩ := destroy_eq P m hI hF self p hp
    exact ⟨d, hd, by simp only [Memory.step, heq, Option.map_some']⟩
  · intro malloc self rhs p r hs hr hpr
    obtain ⟨dp, dr, hdp, hdr, _, _, heq⟩ := assign_ne P m hI hF self rhs p r hpr hs hr
    exact ⟨dp, dr, hdp, hdr, by simp only [Memory.step, heq, Option.map_some']⟩
  · intro malloc self rhs p hs hr
    simp only [Memory.step, assign_same P m hI hF self rhs p hs hr, Option.map_some']
  · rintro malloc self ⟨p, hp⟩
    simp only [Memory.step, assign_same P m hI hF self self p hp hp, Option.map_some']
  · intro malloc op m1 hs hF1 p d hd
    have hI1 := step_Inv P malloc m m1 op hI hF hF1 hs
    have hlen := step_blocks_length P malloc m m1 op hI hF hs
    have hlt := blocks_lt_of_some m p _ hd
    exact Inv_freed_iff m1 hI1 p (by omega)
  · intro malloc rhs m1 hs
    exact step_blocks_length P malloc m m1 _ hI hF hs
  · intro malloc self rhs m1 hs
    exact step_blocks_length P malloc m m1 _ hI hF hs

theorem sampleMemory_run :
    Memory.run x64 (fun _ => true) { blocks := [], refs := [] }
      [.ofSpan ['a', 'b'], .copy 0, .assign 1 1, .destroy 0] = some sampleMemory := by
  decide

/-- C7, witness: the memory after construct, copy, self-assign, destroy; the
count of its one block is the number of live objects pointing to it, and
destroying the last of them frees the block. -/
theorem C7_refcount_witness :
    Memory.Reachable x64 sampleMemory ∧
    (∀ p d, sampleMemory.blocks[p]? = some (some d) →
      d.refCount_ = sampleMemory.handles p) ∧
    sampleMemory.step x64 (fun _ => false) (.destroy 1) =
      some (.ok { blocks := [none], refs := [none, none] }) :=
  ⟨run_Reachable x64 _ _ _ _ Memory.Reachable.init (by decide) sampleMemory_run,
    (C7_refcount x64 sampleMemory
      (run_Reachable x64 _ _ _ _ Memory.Reachable.init (by decide) sampleMemory_run)).1,
    by rfl⟩

/-! ## The lexer -/

theorem Advance_eq (l : Lexer) :
    l.Advance =
      match l.tokens.tail, l.tokens, l.lexError with
      | [], [_], some e => .error (.expression e)
      | _, _, _ => .ok { l with tokens := l.tokens.tail } := by
  obtain ⟨src, toks, le⟩ := l
  unfold Lexer.Advance
  match toks, le with
  | [], _ => rfl
  | [_], some e => rfl
  | [_], none => rfl
  | _ :: _ :: _, _ => rfl

theorem Advance_tokens (l l1 : Lexer) (h : l.Advance = .ok l1) :
    l1 = { l with tokens := l.tokens.tail } := by
  obtain ⟨src, toks, le⟩ := l
  unfold Lexer.Advance at h
  match toks, le, h with
  | [], _, h => cases h; rfl
  | [_], some e, h => cases h
  | [_], none, h => cases h; rfl
  | _ :: _ :: _, _, h => cases h; rfl

theorem Advance_cons_cons (l : Lexer) (t t2 : Token) (rest : List Token)
    (h : l.tokens = t :: t2 :: rest) :
    l.Advance = .ok { l with tokens := t2 :: rest } := by
  obtain ⟨src, toks, le⟩ := l
  simp only at h
  subst h
  rfl

theorem GetTokenType_cons (l : Lexer) (t : Token) (rest : List Token)
    (h : l.tokens = t :: rest) : l.GetTokenType = t.type := by
  unfold Lexer.GetTokenType
  rw [h]

theorem GetName_cons (l : Lexer) (t : Token) (rest : List Token)
    (h : l.tokens = t :: rest) : l.GetName = t.payload := by
  unfold Lexer.GetName
  rw [h]

theorem tokens_ne_nil_of_type (l : Lexer) (h : l.GetTokenType ≠ .None) :
    ∃ t rest, l.tokens = t :: rest ∧ t.type = l.GetTokenType := by
  unfold Lexer.GetTokenType at *
  cases ht : l.tokens with
  | nil => rw [ht] at h; exact absurd rfl h
  | cons t rest => exact ⟨t, rest, rfl, rfl⟩

theorem advanceN_add (a b : Nat) (l : Lexer) :
    Lexer.advanceN (a + b) l =
      match Lexer.advanceN a l with
      | .error e => .error e
      | .ok l1 => Lexer.advanceN b l1 := by
  induction a generalizing l with
  | zero => simp [Lexer.advanceN]
  | succ n ih =>
    have : n + 1 + b = (n + b) + 1 := by omega
    rw [this]
    simp only [Lexer.advanceN]
    cases l.Advance with
    | error e => rfl
    | ok l1 => exact ih l1

/-! ## `ReadParamList` -/

theorem length_tail_tail_le {α : Type} (l : List α) (n : Nat) (h1 : l ≠ [])
    (h2 : l.length ≤ n + 1) : l.tail.tail.length ≤ n := by
  cases l with
  | nil => exact absurd rfl h1
  | cons a t =>
    simp only [List.tail_cons, List.length_tail, List.length_cons] at *
    omega

theorem tokens_ne_nil_of_Name (l : Lexer) (h : l.GetTokenType = .Name) : l.tokens ≠ [] := by
  intro hnil
  unfold Lexer.GetTokenType at h
  rw [hnil] at h
  cases h

/-- The result of the loop does not depend on the bound on its iterations,
once the bound is at least the number of tokens left. -/
theorem loop_fuel (f1 f2 : Nat) (l : Lexer) (names : List String)
    (hN : l.GetTokenType = .Name) (h1 : l.tokens.length ≤ f1) (h2 : l.tokens.length ≤ f2) :
    ReadParamList.loop f1 l names = ReadParamList.loop f2 l names := by
  induction f1 generalizing f2 l names with
  | zero =>
    have := tokens_ne_nil_of_Name l hN
    have : l.tokens = [] := List.length_eq_zero.mp (by omega)
    contradiction
  | succ n ih =>
    have hne := tokens_ne_nil_of_Name l hN
    cases f2 with
    | zero =>
      have : l.tokens = [] := List.length_eq_zero.mp (by omega)
      contradiction
    | succ k =>
      simp only [ReadParamList.loop]
      cases hA : l.Advance with
      | error e => rfl
      | ok l1 =>
        simp only
        by_cases hE : l1.GetTokenType = .EndGroup
        · simp only [hE, if_true]
        · simp only [hE, if_false]
          by_cases hC : l1.GetTokenType = .Comma
          · simp only [hC, ne_eq, not_true_eq_false, if_false]
            cases hA2 : l1.Advance with
            | error e => rfl
            | ok l2 =>
              simp only
              by_cases hN2 : l2.GetTokenType = .Name
              · simp only [hN2, ne_eq, not_true_eq_false, if_false]
                have e1 := Advance_tokens l l1 hA
                have e2 := Advance_tokens l1 l2 hA2
                have hl2 : l2.tokens = l.tokens.tail.tail := by rw [e2, e1]
                apply ih
                · exact hN2
                · rw [hl2]; exact length_tail_tail_le _ _ hne h1
                · rw [hl2]; exact length_tail_tail_le _ _ hne h2
              · simp only [hN2, ne_eq, not_false_eq_true, if_true]
          · simp only [hC, ne_eq, not_false_eq_true, if_true]

/-- One iteration of the loop. -/
theorem loop_unfold (l : Lexer) (names : List String) (hN : l.GetTokenType = .Name) :
    ReadParamList.loop l.tokens.length l names =
      match l.Advance with
      | .error e => .error e
      | .ok l1 => ReadParamList.afterName l1 (names ++ [l.GetName]) := by
  have hne := tokens_ne_nil_of_Name l hN
  obtain ⟨k, hk⟩ : ∃ k, l.tokens.length = k + 1 := by
    cases ht : l.tokens with
    | nil => contradiction
    | cons a t => exact ⟨t.length, rfl⟩
  rw [hk]
  simp only [ReadParamList.loop, ReadParamList.afterName]
  cases hA : l.Advance with
  | error e => rfl
  | ok l1 =>
    simp only
    by_cases hE : l1.GetTokenType = .EndGroup
    · simp only [hE, if_true]
    · simp only [hE, if_false]
      by_cases hC : l1.GetTokenType = .Comma
      · simp only [hC, ne_eq, not_true_eq_false, if_false]
        cases hA2 : l1.Advance with
        | error e => rfl
        | ok l2 =>
          simp only
          by_cases hN2 : l2.GetTokenType = .Name
          · simp only [hN2, ne_eq, not_true_eq_false, if_false]
            have e1 := Advance_tokens l l1 hA
            have e2 := Advance_tokens l1 l2 hA2
            have hl2 : l2.tokens = l.tokens.tail.tail := by rw [e2, e1]
            apply loop_fuel _ _ _ _ hN2
            · rw [hl2]; exact length_tail_tail_le _ _ hne (by omega)
            · exact le_refl _
          · simp only [hN2, ne_eq, not_false_eq_true, if_true]
      · simp only [hC, ne_eq, not_false_eq_true, if_true]

theorem NameSeq_head (ts : List Token) (ns : List String) (h : NameSeq ts ns) :
    ∃ t rest, ts = t :: rest ∧ t.type = .Name := by
  cases h with
  | single t ht => exact ⟨t, [], rfl, ht⟩
  | more t c ts1 ns1 ht _ _ => exact ⟨t, _, rfl, ht⟩

/-- Over a sequence `Name (',' Name)*` the loop pushes the names written and
goes on with what follows the sequence. -/
theorem loop_NameSeq (ts : List Token) (ns : List String) (h : NameSeq ts ns) :
    ∀ (l : Lexer) (names : List String) (rest : List Token), l.tokens = ts ++ rest →
      ReadParamList.loop l.tokens.length l names =
        match Lexer.advanceN ts.length l with
        | .error e => .error e
        | .ok lx => ReadParamList.afterName lx (names ++ ns) := by
  induction h with
  | single t ht =>
    intro l names rest hl
    have hN : l.GetTokenType = .Name := by rw [GetTokenType_cons l t rest hl, ht]
    rw [loop_unfold l names hN, GetName_cons l t rest hl]
    simp only [List.length_singleton, Lexer.advanceN]
    cases l.Advance <;> rfl
  | more t c ts1 ns1 ht hc hrest ih =>
    intro l names rest hl
    have hN : l.GetTokenType = .Name := by
      rw [GetTokenType_cons l t (c :: (ts1 ++ rest)) hl, ht]
    obtain ⟨t1, r1, hts1, ht1⟩ := NameSeq_head ts1 ns1 hrest
    rw [loop_unfold l names hN, GetName_cons l t (c :: (ts1 ++ rest)) hl]
    have hA := Advance_cons_cons l t c (ts1 ++ rest) hl
    have hl1 : ({ l with tokens := c :: (ts1 ++ rest) } : Lexer).tokens
        = c :: t1 :: (r1 ++ rest) := by simp [hts1]
    have hA1 := Advance_cons_cons _ c t1 (r1 ++ rest) hl1
    simp only [List.length_cons, Lexer.advanceN, hA, hA1]
    have hT1 : ({ l with tokens := c :: (ts1 ++ rest) } : Lexer).GetTokenType = .Comma := by
      rw [GetTokenType_cons _ c (ts1 ++ rest) rfl, hc]
    have hl2 : ({ l with tokens := t1 :: (r1 ++ rest) } : Lexer).tokens = ts1 ++ rest := by
      simp [hts1]
    have hT2 : ({ l with tokens := t1 :: (r1 ++ rest) } : Lexer).GetTokenType = .Name := by
      rw [GetTokenType_cons _ t1 (r1 ++ rest) rfl, ht1]
    have := ih { l with tokens := t1 :: (r1 ++ rest) } (names ++ [t.payload]) rest hl2
    rw [ReadParamList.afterName]
    simp only [hT1, hA1, hT2, ne_eq, not_true_eq_false, if_false, reduceCtorEq]
    rw [this]
    simp only [List.append_assoc, List.singleton_append]

theorem type_ne_None_of {l : Lexer} {k : TokenType} (h : l.GetTokenType = k)
    (hk : k ≠ .None) : l.GetTokenType ≠ .None := by
  rw [h]; exact hk

/-- When the loop returns, it has read `Name (',' Name)* ')'` and pushed the
names written. -/
theorem loop_ok (n : Nat) :
    ∀ (l l1 : Lexer) (names names1 : List String), l.tokens.length ≤ n →
      l.GetTokenType = .Name →
      ReadParamList.loop l.tokens.length l names = .ok (l1, names1) →
      ∃ ts ns c rest, NameSeq ts ns ∧ c.type = .EndGroup ∧ l.tokens = ts ++ c :: rest ∧
        names1 = names ++ ns ∧ Lexer.advanceN (ts.length + 1) l = .ok l1 := by
  induction n with
  | zero =>
    intro l l1 names names1 hlen hN _
    have := tokens_ne_nil_of_Name l hN
    have : l.tokens = [] := List.length_eq_zero.mp (by omega)
    contradiction
  | succ n ih =>
    intro l l1 names names1 hlen hN hok
    obtain ⟨t, r, hl, ht⟩ := tokens_ne_nil_of_type l (type_ne_None_of hN (by decide))
    rw [hN] at ht
    rw [loop_unfold l names hN, GetName_cons l t r hl] at hok
    cases hA : l.Advance with
    | error e => rw [hA] at hok; cases hok
    | ok la =>
      rw [hA] at hok
      simp only at hok
      have ea := Advance_tokens l la hA
      have hla : la.tokens = r := by rw [ea]; simp [hl]
      unfold ReadParamList.afterName at hok
      by_cases hE : la.GetTokenType = .EndGroup
      · simp only [hE, if_true] at hok
        obtain ⟨c, r2, hc, hct⟩ := tokens_ne_nil_of_type la (type_ne_None_of hE (by decide))
        rw [hE] at hct
        cases hA2 : la.Advance with
        | error e => rw [hA2] at hok; cases hok
        | ok lb =>
          rw [hA2] at hok
          simp only [Except.ok.injEq, Prod.mk.injEq] at hok
          refine ⟨[t], [t.payload], c, r2, NameSeq.single t ht, hct, ?_, hok.2.symm, ?_⟩
          · rw [hl, ← hla, hc]; rfl
          · simp only [List.length_singleton, Lexer.advanceN, hA, hA2, hok.1]
      · simp only [hE, if_false] at hok
        by_cases hC : la.GetTokenType = .Comma
        · simp only [hC, ne_eq, not_true_eq_false, if_false] at hok
          obtain ⟨c, r2, hc, hct⟩ := tokens_ne_nil_of_type la (type_ne_None_of hC (by decide))
          rw [hC] at hct
          cases hA2 : la.Advance with
          | error e => rw [hA2] at hok; cases hok
          | ok lb =>
            rw [hA2] at hok
            simp only at hok
            have eb := Advance_tokens la lb hA2
            have hlb : lb.tokens = r2 := by rw [eb]; simp [hc]
            by_cases hN2 : lb.GetTokenType = .Name
            · simp only [hN2, ne_eq, not_true_eq_false, if_false] at hok
              have hlen2 : lb.tokens.length ≤ n := by
                rw [hlb]
                have h1 : l.tokens.length = r2.length + 2 := by
                  rw [hl, ← hla, hc]; rfl
                omega
              obtain ⟨ts, ns, c2, rest, hseq, hc2, htok, hnames, hadv⟩ :=
                ih lb l1 (names ++ [t.payload]) names1 hlen2 hN2 hok
              refine ⟨t :: c :: ts, t.payload :: ns, c2, rest,
                NameSeq.more t c ts ns ht hct hseq, hc2, ?_, ?_, ?_⟩
              · rw [hl, ← hla, hc, ← hlb, htok]; rfl
              · rw [hnames]; simp
              · have : (t :: c :: ts).length + 1 = (ts.length + 1) + 1 + 1 := by simp
                rw [this]
                simp only [Lexer.advanceN, hA, hA2] at hadv ⊢
                exact hadv
            · simp only [hN2, ne_eq, not_false_eq_true, if_true] at hok
              cases hok
        · simp only [hC, ne_eq, not_false_eq_true, if_true] at hok
          cases hok

theorem ParamList_names (ts : List Token) (ns : List String) (h : ParamList ts ns) :
    ns = (ts.filter (fun t => t.type = .Name)).map (fun t => t.payload) := by
  have key : ∀ (ts : List Token) (ns : List String), NameSeq ts ns →
      ns = (ts.filter (fun t => t.type = .Name)).map (fun t => t.payload) := by
    intro ts ns h
    induction h with
    | single t ht => simp [List.filter, ht]
    | more t c ts1 ns1 ht hc _ ih => simp [List.filter, ht, hc, ← ih]
  cases h with
  | none o c ho hc => simp [List.filter, ho, hc]
  | some o c ts1 _ ho hseq hc =>
    rw [key ts1 ns hseq]
    simp [List.filter_append, List.filter, ho, hc]

theorem advanceN_tokens (n : Nat) :
    ∀ (l l1 : Lexer), Lexer.advanceN n l = .ok l1 →
      l1 = { l with tokens := l.tokens.drop n } := by
  induction n with
  | zero =>
    intro l l1 h
    simp only [Lexer.advanceN, Except.ok.injEq] at h
    rw [← h]
    simp
  | succ n ih =>
    intro l l1 h
    simp only [Lexer.advanceN] at h
    cases hA : l.Advance with
    | error e => rw [hA] at h; cases h
    | ok la =>
      rw [hA] at h
      have e1 := Advance_tokens l la hA
      have e2 := ih la l1 h
      rw [e2, e1]
      simp [List.drop_succ_cons, List.tail_drop]

theorem advanceN_succ_last (n : Nat) (l l1 : Lexer)
    (h : Lexer.advanceN (n + 1) l = .ok l1) :
    ∃ lm, Lexer.advanceN n l = .ok lm ∧ lm.Advance = .ok l1 := by
  rw [advanceN_add n 1 l] at h
  cases hm : Lexer.advanceN n l with
  | error e => rw [hm] at h; cases h
  | ok lm =>
    rw [hm] at h
    simp only [Lexer.advanceN] at h
    refine ⟨lm, rfl, ?_⟩
    cases hA : lm.Advance with
    | error e => rw [hA] at h; cases h
    | ok lx => rw [hA] at h; exact h

/-- The function `ReadParamList` returns exactly on `'(' ')'` and
`'(' Name (',' Name)* ')'`, with the names written appended. -/
theorem ReadParamList_ok_iff (l l1 : Lexer) (names names1 : List String)
    (hS : l.GetTokenType = .StartGroup) :
    ReadParamList l names = .ok (l1, names1) ↔
      ∃ ts ns, ParamList ts ns ∧ l.Reads ts l1 ∧ names1 = names ++ ns := by
  obtain ⟨o, r, hl, ho⟩ := tokens_ne_nil_of_type l (type_ne_None_of hS (by decide))
  rw [hS] at ho
  constructor
  · intro hok
    unfold ReadParamList at hok
    cases hA : l.Advance with
    | error e => rw [hA] at hok; cases hok
    | ok la =>
      rw [hA] at hok
      simp only at hok
      have ea := Advance_tokens l la hA
      have hla : la.tokens = r := by rw [ea]; simp [hl]
      by_cases hE : la.GetTokenType = .EndGroup
      · simp only [hE, if_true] at hok
        obtain ⟨c, r2, hc, hct⟩ := tokens_ne_nil_of_type la (type_ne_None_of hE (by decide))
        rw [hE] at hct
        cases hA2 : la.Advance with
        | error e => rw [hA2] at hok; cases hok
        | ok lb =>
          rw [hA2] at hok
          simp only [Except.ok.injEq, Prod.mk.injEq] at hok
          refine ⟨[o, c], [], ParamList.none o c ho hct, ⟨⟨r2, ?_⟩, ?_⟩, ?_⟩
          · rw [hl, ← hla, hc]; rfl
          · simp only [List.length_cons, List.length_nil, Lexer.advanceN, hA, hA2, hok.1]
          · simp [hok.2]
      · simp only [hE, if_false] at hok
        by_cases hN : la.GetTokenType = .Name
        · simp only [hN, ne_eq, not_true_eq_false, if_false] at hok
          obtain ⟨ts, ns, c, rest, hseq, hc, htok, hnames, hadv⟩ :=
            loop_ok _ la l1 names names1 (le_refl _) hN hok
          refine ⟨o :: (ts ++ [c]), ns, ParamList.some o c ts ns ho hseq hc,
            ⟨⟨rest, ?_⟩, ?_⟩, hnames⟩
          · rw [hl, ← hla, htok]; simp
          · have : (o :: (ts ++ [c])).length = (ts.length + 1) + 1 := by simp
            rw [this]
            simp only [Lexer.advanceN, hA] at hadv ⊢
            exact hadv
        · simp only [hN, ne_eq, not_false_eq_true, if_true] at hok
          cases hok
  · rintro ⟨ts, ns, hP, ⟨⟨rest, htok⟩, hadv⟩, hnames⟩
    cases hP with
    | none o1 c ho1 hc =>
      have hl2 : l.tokens = o1 :: c :: rest := by rw [htok]; rfl
      have hA := Advance_cons_cons l o1 c rest hl2
      simp only [List.length_cons, List.length_nil, Lexer.advanceN, hA] at hadv
      unfold ReadParamList
      have hT : ({ l with tokens := c :: rest } : Lexer).GetTokenType = .EndGroup := by
        rw [GetTokenType_cons _ c rest rfl, hc]
      simp only [hA, hT, if_true]
      cases hA2 : Lexer.Advance { l with tokens := c :: rest } with
      | error e => rw [hA2] at hadv; cases hadv
      | ok lb =>
        rw [hA2] at hadv
        simp only [Except.ok.injEq] at hadv
        simp [hadv, hnames]
    | some o1 c ts1 _ ho1 hseq hc =>
      obtain ⟨t1, r1, hts1, ht1⟩ := NameSeq_head ts1 ns hseq
      have hl2 : l.tokens = o1 :: t1 :: (r1 ++ [c] ++ rest) := by rw [htok, hts1]; simp
      have hA := Advance_cons_cons l o1 t1 (r1 ++ [c] ++ rest) hl2
      have hlen : (o1 :: (ts1 ++ [c])).length = (ts1.length + 1) + 1 := by simp
      rw [hlen] at hadv
      simp only [Lexer.advanceN, hA] at hadv
      have hadv2 : Lexer.advanceN (ts1.length + 1)
          { l with tokens := t1 :: (r1 ++ [c] ++ rest) } = .ok l1 := by
        simp only [Lexer.advanceN]; exact hadv
      obtain ⟨lm, hm, hmA⟩ := advanceN_succ_last _ _ _ hadv2
      have hlm := advanceN_tokens _ _ _ hm
      have hla : ({ l with tokens := t1 :: (r1 ++ [c] ++ rest) } : Lexer).tokens
          = ts1 ++ c :: rest := by simp [hts1]
      have hla2 : t1 :: (r1 ++ [c] ++ rest) = ts1 ++ c :: rest := hla
      have hlmt : lm.tokens = c :: rest := by
        rw [hlm]
        show List.drop ts1.length (t1 :: (r1 ++ [c] ++ rest)) = c :: rest
        rw [hla2, List.drop_left]
      have hTm : lm.GetTokenType = .EndGroup := by
        rw [GetTokenType_cons lm c rest hlmt, hc]
      have hTa : ({ l with tokens := t1 :: (r1 ++ [c] ++ rest) } : Lexer).GetTokenType
          = .Name := by
        rw [GetTokenType_cons _ t1 _ rfl, ht1]
      unfold ReadParamList
      simp only [hA, hTa, ne_eq, not_true_eq_false, if_false, reduceCtorEq]
      have := loop_NameSeq ts1 ns hseq _ names (c :: rest) hla
      rw [this, hm]
      simp only [ReadParamList.afterName, hTm, if_true, hmA, hnames]

/-- A token that is neither a name nor `')'` after `'('`. -/
theorem ReadParamList_fail_open (l l1 : Lexer) (names : List String) (o : Token)
    (hR : l.Reads [o] l1) (hN : l1.GetTokenType ≠ .Name) (hE : l1.GetTokenType ≠ .EndGroup) :
    ReadParamList l names = .error (l1.Fail "Expected name or ')' after '('.") := by
  obtain ⟨_, hadv⟩ := hR
  simp only [List.length_singleton, Lexer.advanceN] at hadv
  cases hA : l.Advance with
  | error e => rw [hA] at hadv; cases hadv
  | ok la =>
    rw [hA] at hadv
    simp only [Except.ok.injEq] at hadv
    subst hadv
    unfold ReadParamList
    simp only [hA, hE, hN, ne_eq, not_false_eq_true, if_true, if_false]

/-- Where the lexer stands after `'(' Name (',' Name)*`, and what
`ReadParamList` does from there. -/
theorem ReadParamList_NameSeq (l lx : Lexer) (names : List String) (o : Token)
    (ts : List Token) (ns : List String) (rest : List Token)
    (htok : l.tokens = o :: ts ++ rest) (hseq : NameSeq ts ns)
    (hadv : Lexer.advanceN (ts.length + 1) l = .ok lx) :
    lx.tokens = rest ∧
      ReadParamList l names = ReadParamList.afterName lx (names ++ ns) := by
  obtain ⟨t1, r1, hts1, ht1⟩ := NameSeq_head ts ns hseq
  have hl2 : l.tokens = o :: t1 :: (r1 ++ rest) := by rw [htok, hts1]; simp
  have hA := Advance_cons_cons l o t1 (r1 ++ rest) hl2
  have hadv2 : Lexer.advanceN ts.length { l with tokens := t1 :: (r1 ++ rest) } = .ok lx := by
    have : ts.length + 1 = ts.length + 1 := rfl
    rw [Nat.add_comm, advanceN_add 1 ts.length l] at hadv
    simp only [Lexer.advanceN, hA] at hadv
    exact hadv
  have hla : t1 :: (r1 ++ rest) = ts ++ rest := by simp [hts1]
  have hlx := advanceN_tokens _ _ _ hadv2
  have hTa : ({ l with tokens := t1 :: (r1 ++ rest) } : Lexer).GetTokenType = .Name := by
    rw [GetTokenType_cons _ t1 _ rfl, ht1]
  constructor
  · rw [hlx]
    show List.drop ts.length (t1 :: (r1 ++ rest)) = rest
    rw [hla, List.drop_left]
  · unfold ReadParamList
    simp only [hA, hTa, ne_eq, not_true_eq_false, if_false, reduceCtorEq]
    have := loop_NameSeq ts ns hseq { l with tokens := t1 :: (r1 ++ rest) } names rest hla
    rw [this, hadv2]

/-- A token other than `','` and `')'` after a name. -/
theorem ReadParamList_fail_name (l lx : Lexer) (names : List String) (o : Token)
    (ts : List Token) (ns : List String) (hR : l.Reads (o :: ts) lx) (hseq : NameSeq ts ns)
    (hC : lx.GetTokenType ≠ .Comma) (hE : lx.GetTokenType ≠ .EndGroup) :
    ReadParamList l names = .error (lx.Fail "Expected ',' or ')' after name.") := by
  obtain ⟨⟨rest, htok⟩, hadv⟩ := hR
  have := (ReadParamList_NameSeq l lx names o ts ns rest htok hseq
    (by simpa using hadv)).2
  rw [this]
  unfold ReadParamList.afterName
  simp only [hE, hC, ne_eq, not_false_eq_true, if_true, if_false]

/-- A token other than a name after `','`. -/
theorem ReadParamList_fail_comma (l lx : Lexer) (names : List String) (o c : Token)
    (ts : List Token) (ns : List String) (hR : l.Reads (o :: (ts ++ [c])) lx)
    (hseq : NameSeq ts ns) (hc : c.type = .Comma) (hN : lx.GetTokenType ≠ .Name) :
    ReadParamList l names = .error (lx.Fail "Expected name after ','.") := by
  obtain ⟨⟨rest, htok⟩, hadv⟩ := hR
  have hlen : (o :: (ts ++ [c])).length = (ts.length + 1) + 1 := by simp
  rw [hlen] at hadv
  obtain ⟨lm, hm, hmA⟩ := advanceN_succ_last _ _ _ hadv
  obtain ⟨hlmt, hrp⟩ := ReadParamList_NameSeq l lm names o ts ns (c :: rest)
    (by rw [htok]; simp) hseq hm
  rw [hrp]
  have hTm : lm.GetTokenType = .Comma := by rw [GetTokenType_cons lm c rest hlmt, hc]
  unfold ReadParamList.afterName
  simp only [hTm, hmA, hN, ne_eq, not_false_eq_true, not_true_eq_false, if_true, if_false,
    reduceCtorEq]

/-- C8. Called on a `'('` token, `ReadParamList` returns exactly when the
tokens from `'('` on start with `'(' ')'` or `'(' Name (',' Name)* ')'`; it
then has appended the names written, in order, to the list (which are the
payloads of the `Name` tokens of the sequence, so as many as were written)
and left the lexer behind the `')'`. In every other case it throws: after
`'('`, at a token that is neither a name nor `')'`, the message
"Expected name or ')' after '('."; after a name, at a token that is neither
`','` nor `')'`, "Expected ',' or ')' after name."; after `','`, at a token
that is not a name, "Expected name after ','.". -/
theorem C8_ReadParamList (lexer : Lexer) (names : List String)
    (hS : lexer.GetTokenType = .StartGroup) :
    (∀ lexer1 names1, ReadParamList lexer names = .ok (lexer1, names1) ↔
      ∃ ts ns, ParamList ts ns ∧ lexer.Reads ts lexer1 ∧ names1 = names ++ ns) ∧
    (∀ ts ns, ParamList ts ns →
      ns = (ts.filter (fun t => t.type = .Name)).map (fun t => t.payload)) ∧
    ((¬ ∃ ts ns lexer1, ParamList ts ns ∧ lexer.Reads ts lexer1) →
      ∃ e, ReadParamList lexer names = .error e) ∧
    (∀ o lx, lexer.Reads [o] lx → lx.GetTokenType ≠ .Name → lx.GetTokenType ≠ .EndGroup →
      ReadParamList lexer names = .error (lx.Fail "Expected name or ')' after '('.")) ∧
    (∀ o ts ns lx, lexer.Reads (o :: ts) lx → NameSeq ts ns →
      lx.GetTokenType ≠ .Comma → lx.GetTokenType ≠ .EndGroup →
      ReadParamList lexer names = .error (lx.Fail "Expected ',' or ')' after name.")) ∧
    (∀ o c ts ns lx, lexer.Reads (o :: (ts ++ [c])) lx → NameSeq ts ns →
      c.type = .Comma → lx.GetTokenType ≠ .Name →
      ReadParamList lexer names = .error (lx.Fail "Expected name after ','.")) := by
  refine ⟨fun l1 n1 => ReadParamList_ok_iff lexer l1 names n1 hS, ParamList_names, ?_,
    fun o lx hR hN hE => ReadParamList_fail_open lexer lx names o hR hN hE,
    fun o ts ns lx hR hseq hC hE => ReadParamList_fail_name lexer lx names o ts ns hR hseq hC hE,
    fun o c ts ns lx hR hseq hc hN =>
      ReadParamList_fail_comma lexer lx names o c ts ns hR hseq hc hN⟩
  intro hno
  cases hr : ReadParamList lexer names with
  | error e => exact ⟨e, rfl⟩
  | ok r =>
    obtain ⟨l1, n1⟩ := r
    obtain ⟨ts, ns, hP, hR, _⟩ := (ReadParamList_ok_iff lexer l1 names n1 hS).mp hr
    exact absurd ⟨ts, ns, l1, hP, hR⟩ hno

/-- C8, witness: the parameter list `(a, b)`. -/
theorem C8_ReadParamList_witness :
    sampleParams.GetTokenType = .StartGroup ∧
    ReadParamList sampleParams ["x"] =
      .ok ({ sampleParams with tokens := sampleParams.tokens.drop 5 }, ["x", "a", "b"]) ∧
    (∀ ts ns, ParamList ts ns →
      ns = (ts.filter (fun t => t.type = .Name)).map (fun t => t.payload)) :=
  ⟨by decide, by rfl, (C8_ReadParamList sampleParams ["x"] (by decide)).2.1⟩

/-! ## `AddDefinition` -/

theorem Heap.write_concat {E : Type} (heap : Heap E) (d : Definition E)
    (f : Definition E → Definition E) :
    Heap.write (heap ++ [d]) heap.length f = heap ++ [f d] := by
  unfold Heap.write
  have h1 : (heap ++ [d])[heap.length]? = some d := List.getElem?_concat_length heap d
  have h2 : (heap ++ [d] : List (Definition E))[List.length heap]? = some d := h1
  simp only [h2]
  exact List.set_append_right _ _ (le_refl _) |>.trans (by simp)

theorem Heap.free_concat {E : Type} (heap : Heap E) (d : Definition E) :
    Heap.free (heap ++ [d]) = heap := by
  unfold Heap.free
  exact List.dropLast_concat

/-- The function `AddDefinition` with the store operations carried out. -/
theorem AddDefinition_eq {E D : Type} (engine : Engine E D) (w : World E) (lexer : Lexer) :
    AddDefinition engine w lexer =
      if lexer.GetTokenType ≠ .Name then
        (.uncaught (lexer.Fail "Name expected after 'def'."), w)
      else
        match lexer.Advance with
        | .error e => (.uncaught e, w)
        | .ok lexer1 =>
          if lexer1.GetTokenType = .None then
            AddDefinition.query engine w lexer.GetName
          else
            match AddDefinition.head lexer1 with
            | .error e => (.uncaught e, w)
            | .ok (lexer3, names) =>
              match engine.ParseFullExpression lexer3 w.globals.map
                  (w.heap ++ [AddDefinition.inProgress lexer lexer1 names])
                  (some w.heap.length) with
              | .error e => (.uncaught e, w)
              | .ok expression =>
                (.next,
                  { heap := w.heap ++ [AddDefinition.built lexer lexer1 names expression]
                    globals :=
                      { vec := w.globals.vec ++ [w.heap.length]
                        map := Function.update w.globals.map lexer.GetName
                          (some w.heap.length) }
                    output := w.output }) := by
  unfold AddDefinition
  by_cases hN : lexer.GetTokenType = .Name
  · simp only [hN, ne_eq, not_true_eq_false, if_false, Heap.alloc, Heap.write_concat,
      Heap.free_concat]
    cases hA : lexer.Advance with
    | error e => rfl
    | ok lexer1 =>
      simp only
      by_cases h0 : lexer1.GetTokenType = .None
      · simp only [h0, if_true, AddDefinition.query]
      · simp only [h0, if_false, AddDefinition.head]
        by_cases hS : lexer1.GetTokenType = .StartGroup
        · simp only [hS, if_true]
          cases hR : ReadParamList lexer1 [] with
          | error e => rfl
          | ok r =>
            obtain ⟨lexer2, names⟩ := r
            simp only [Heap.write_concat]
            by_cases hL : lexer2.GetTokenType = .Lamda
            · simp only [hL, ne_eq, not_true_eq_false, if_false, Heap.free_concat]
              cases hA2 : lexer2.Advance with
              | error e => rfl
              | ok lexer3 =>
                simp only [AddDefinition.inProgress, AddDefinition.built, hS, decide_True,
                  List.nil_append]
            · simp only [hL, ne_eq, not_false_eq_true, if_true, Heap.free_concat]
        · simp only [hS, if_false]
          by_cases hL : lexer1.GetTokenType = .Lamda
          · simp only [hL, ne_eq, not_true_eq_false, if_false, Heap.free_concat]
            cases hA2 : lexer1.Advance with
            | error e => rfl
            | ok lexer3 =>
              simp only [AddDefinition.inProgress, AddDefinition.built, hL, reduceCtorEq, decide_False]
              cases engine.ParseFullExpression lexer3 w.globals.map _ (some w.heap.length)
                <;> simp only [Heap.write_concat, Heap.free_concat]
          · simp only [hL, ne_eq, not_false_eq_true, if_true, Heap.free_concat]
  · simp only [hN, ne_eq, not_false_eq_true, if_true]

/-- What `AddDefinition` does when it builds a definition. -/
theorem AddDefinition_of_Builds {E D : Type} (engine : Engine E D) (w : World E)
    (lexer : Lexer) (d : Definition E) (h : AddDefinition.Builds engine w lexer d) :
    AddDefinition engine w lexer =
      (.next,
        { heap := w.heap ++ [d]
          globals :=
            { vec := w.globals.vec ++ [w.heap.length]
              map := Function.update w.globals.map d.name (some w.heap.length) }
          output := w.output }) := by
  obtain ⟨lexer1, lexer3, names, expression, hN, hA, h0, hH, hP, hd⟩ := h
  rw [AddDefinition_eq]
  simp only [hN, ne_eq, not_true_eq_false, if_false, hA, h0, hH, hP, hd]
  rfl

/-- When `AddDefinition` does not build a definition it leaves the store and
the definition list as they were. -/
theorem AddDefinition_of_not_Builds {E D : Type} (engine : Engine E D) (w : World E)
    (lexer : Lexer) (h : ¬ ∃ d, AddDefinition.Builds engine w lexer d) :
    (AddDefinition engine w lexer).2.heap = w.heap ∧
    (AddDefinition engine w lexer).2.globals = w.globals := by
  rw [AddDefinition_eq]
  by_cases hN : lexer.GetTokenType = .Name
  · simp only [hN, ne_eq, not_true_eq_false, if_false]
    cases hA : lexer.Advance with
    | error e => exact ⟨rfl, rfl⟩
    | ok lexer1 =>
      simp only
      by_cases h0 : lexer1.GetTokenType = .None
      · simp only [h0, if_true, AddDefinition.query]
        cases w.globals.map lexer.GetName with
        | none => simp
        | some p =>
          simp only
          cases hh : (w.heap ++ [({ name := lexer.GetName } : Definition E)])[p]? with
          | none => simp
          | some d0 =>
            simp only
            cases PrintDefinition engine
              (w.heap ++ [({ name := lexer.GetName } : Definition E)]) d0 <;> simp
      · simp only [h0, if_false]
        cases hH : AddDefinition.head lexer1 with
        | error e => exact ⟨rfl, rfl⟩
        | ok r =>
          obtain ⟨lexer3, names⟩ := r
          simp only
          cases hP : engine.ParseFullExpression lexer3 w.globals.map
              (w.heap ++ [AddDefinition.inProgress lexer lexer1 names])
              (some w.heap.length) with
          | error e => exact ⟨rfl, rfl⟩
          | ok expression =>
            exact absurd ⟨_, lexer1, lexer3, names, expression, hN, hA, h0, hH, hP, rfl⟩ h
  · simp only [hN, ne_eq, not_false_eq_true, if_true, and_self]

/-- C1. Whenever `AddDefinition` builds a definition `d` (name, optional
parameter list, `=>` and body accepted), the call returns normally, `d` is
a new object at the end of the store, `vec` is the old `vec` with the
pointer to `d` appended (so the old entries stay, in order, same-named ones
included, and `vec` grows by one), and `map` is the old `map` with the entry
of the name of `d` set to that pointer and every other entry unchanged. A
call that builds no definition leaves the store and the definition list as
they were. -/
theorem C1_AddDefinition_insert {E D : Type} (engine : Engine E D) (w : World E)
    (lexer : Lexer) (d : Definition E) (h : AddDefinition.Builds engine w lexer d) :
    (AddDefinition engine w lexer).1 = .next ∧
    (AddDefinition engine w lexer).2.heap = w.heap ++ [d] ∧
    (AddDefinition engine w lexer).2.heap[w.heap.length]? = some d ∧
    (AddDefinition engine w lexer).2.globals.vec = w.globals.vec ++ [w.heap.length] ∧
    (AddDefinition engine w lexer).2.globals.vec.length = w.globals.vec.length + 1 ∧
    (∀ i, i < w.globals.vec.length →
      (AddDefinition engine w lexer).2.globals.vec[i]? = w.globals.vec[i]?) ∧
    (AddDefinition engine w lexer).2.globals.map d.name = some w.heap.length ∧
    (∀ n, n ≠ d.name → (AddDefinition engine w lexer).2.globals.map n = w.globals.map n) ∧
    (AddDefinition engine w lexer).2.globals.map
      = Function.update w.globals.map d.name (some w.heap.length) ∧
    (∀ lexer2, (¬ ∃ d2, AddDefinition.Builds engine w lexer2 d2) →
      (AddDefinition engine w lexer2).2.heap = w.heap ∧
      (AddDefinition engine w lexer2).2.globals = w.globals) := by
  rw [AddDefinition_of_Builds engine w lexer d h]
  refine ⟨rfl, rfl, ?_, rfl, ?_, ?_, ?_, ?_, rfl,
    fun lexer2 h2 => AddDefinition_of_not_Builds engine w lexer2 h2⟩
  · exact List.getElem?_concat_length _ _
  · simp
  · intro i hi
    exact List.getElem?_append_left hi
  · simp
  · intro n hn
    simp [Function.update, hn]

theorem sample_Builds :
    AddDefinition.Builds demo World.empty (demoLex sampleText) sampleDefinition :=
  ⟨_, _, _, _, by decide, rfl, by decide, rfl, rfl, rfl⟩

/-- C1, witness: `sq ( n ) => n * n` entered into the empty list. -/
theorem C1_AddDefinition_insert_witness :
    AddDefinition.Builds demo World.empty (demoLex sampleText) sampleDefinition ∧
    (AddDefinition demo World.empty (demoLex sampleText)).2.globals.vec = [] ++ [0] :=
  ⟨sample_Builds,
    (C1_AddDefinition_insert demo World.empty (demoLex sampleText) sampleDefinition
      sample_Builds).2.2.2.1⟩

/-! ### The parts of a definition -/

theorem head_ok {lexer1 lexer3 : Lexer} {names : List String}
    (h : AddDefinition.head lexer1 = .ok (lexer3, names)) :
    (lexer1.GetTokenType = .StartGroup ∧ ∃ lexer2, ReadParamList lexer1 [] = .ok (lexer2, names) ∧
        lexer2.GetTokenType = .Lamda ∧ lexer2.Advance = .ok lexer3) ∨
    (lexer1.GetTokenType ≠ .StartGroup ∧ names = [] ∧
        lexer1.GetTokenType = .Lamda ∧ lexer1.Advance = .ok lexer3) := by
  unfold AddDefinition.head at h
  by_cases hS : lexer1.GetTokenType = .StartGroup
  · left
    simp only [hS, if_true] at h
    cases hR : ReadParamList lexer1 [] with
    | error e => rw [hR] at h; cases h
    | ok r =>
      obtain ⟨lexer2, names2⟩ := r
      rw [hR] at h
      simp only at h
      by_cases hL : lexer2.GetTokenType = .Lamda
      · simp only [hL, ne_eq, not_true_eq_false, if_false] at h
        cases hA : lexer2.Advance with
        | error e => rw [hA] at h; cases h
        | ok l3 =>
          rw [hA] at h
          simp only [Except.ok.injEq, Prod.mk.injEq] at h
          obtain ⟨h1, h2⟩ := h
          subst h1 h2
          exact ⟨hS, lexer2, rfl, hL, hA⟩
      · simp only [hL, ne_eq, not_false_eq_true, if_true] at h
        cases h
  · right
    simp only [hS, if_false] at h
    by_cases hL : lexer1.GetTokenType = .Lamda
    · simp only [hL, ne_eq, not_true_eq_false, if_false] at h
      cases hA : lexer1.Advance with
      | error e => rw [hA] at h; cases h
      | ok l3 =>
        rw [hA] at h
        simp only [Except.ok.injEq, Prod.mk.injEq] at h
        obtain ⟨h1, h2⟩ := h
        subst h1 h2
        exact ⟨hS, rfl, hL, rfl⟩
    · simp only [hL, ne_eq, not_false_eq_true, if_true] at h
      cases h

/-- C9. For the definition `d` that `AddDefinition` builds and inserts:
`d.isFunction` is true exactly when the token after the name is `'('`; in
that case the tokens from `'('` on start with a parameter list whose names,
in the order written, are `d.paramNames`; a definition with
`isFunction = false` has no parameter names; and when the name is followed
by `'(' ')'` the definition is a function with no parameters. -/
theorem C9_isFunction_paramNames {E D : Type} (engine : Engine E D) (w : World E)
    (lexer : Lexer) (d : Definition E) (h : AddDefinition.Builds engine w lexer d) :
    (AddDefinition engine w lexer).2.heap[w.heap.length]? = some d ∧
    (AddDefinition engine w lexer).2.globals.vec.getLast? = some w.heap.length ∧
    ∃ lexer1, lexer.Advance = .ok lexer1 ∧
      (d.isFunction = true ↔ lexer1.GetTokenType = .StartGroup) ∧
      (lexer1.GetTokenType = .StartGroup →
        ∃ ts lexer2, ParamList ts d.paramNames ∧ lexer1.Reads ts lexer2 ∧
          d.paramNames = (ts.filter (fun t => t.type = .Name)).map (fun t => t.payload)) ∧
      (d.isFunction = false → d.paramNames = []) ∧
      (∀ o c rest, lexer1.tokens = o :: c :: rest → o.type = .StartGroup →
        c.type = .EndGroup → d.isFunction = true ∧ d.paramNames = []) := by
  have hAdd := AddDefinition_of_Builds engine w lexer d h
  obtain ⟨lexer1, lexer3, names, expression, hN, hA, h0, hH, hP, hd⟩ := h
  refine ⟨?_, ?_, lexer1, hA, ?_, ?_, ?_, ?_⟩
  · rw [hAdd]; exact List.getElem?_concat_length _ _
  · rw [hAdd]; simp
  · subst hd
    simp [AddDefinition.built]
  · intro hS
    rcases head_ok hH with ⟨_, lexer2, hR, _, _⟩ | ⟨hnS, _⟩
    · obtain ⟨ts, ns, hPL, hReads, hnames⟩ :=
        (ReadParamList_ok_iff lexer1 lexer2 [] names hS).mp hR
      have hdn : d.paramNames = ns := by
        subst hd
        simp [AddDefinition.built, hnames]
      rw [hdn]
      exact ⟨ts, lexer2, hPL, hReads, ParamList_names ts ns hPL⟩
    · exact absurd hS hnS
  · intro hf
    rcases head_ok hH with ⟨hS, _⟩ | ⟨_, hnil, _⟩
    · subst hd
      simp [AddDefinition.built, hS] at hf
    · subst hd
      simp [AddDefinition.built, hnil]
  · intro o c rest htok ho hc
    have hS : lexer1.GetTokenType = .StartGroup := by
      rw [GetTokenType_cons lexer1 o _ htok, ho]
    rcases head_ok hH with ⟨_, lexer2, hR, _, _⟩ | ⟨hnS, _⟩
    · have hA1 := Advance_cons_cons lexer1 o c rest htok
      have hT : ({ lexer1 with tokens := c :: rest } : Lexer).GetTokenType = .EndGroup := by
        rw [GetTokenType_cons _ c rest rfl, hc]
      unfold ReadParamList at hR
      simp only [hA1, hT, if_true] at hR
      cases hA2 : Lexer.Advance { lexer1 with tokens := c :: rest } with
      | error e => rw [hA2] at hR; cases hR
      | ok lb =>
        rw [hA2] at hR
        simp only [Except.ok.injEq, Prod.mk.injEq] at hR
        subst hd
        simp [AddDefinition.built, hS, ← hR.2]
    · exact absurd hS hnS

/-- C9, witness: `sq ( n ) => n * n` is a function with the parameter `n`. -/
theorem C9_isFunction_paramNames_witness :
    AddDefinition.Builds demo World.empty (demoLex sampleText) sampleDefinition ∧
    (AddDefinition demo World.empty (demoLex sampleText)).2.heap[0]?
      = some sampleDefinition :=
  ⟨sample_Builds,
    (C9_isFunction_paramNames demo World.empty (demoLex sampleText) sampleDefinition
      sample_Builds).1⟩

/-! ### Redefinition and the order of construction -/

theorem WF_fresh {E : Type} (w : World E) (hWF : w.WF) :
    w.heap[w.heap.length]? = none ∧ w.heap.length ∉ w.globals.vec ∧
      ∀ n, w.globals.map n ≠ some w.heap.length := by
  refine ⟨List.getElem?_eq_none (le_refl _), ?_, ?_⟩
  · intro hmem
    exact absurd (hWF.1 _ hmem) (lt_irrefl _)
  · intro n hn
    exact absurd (hWF.2 n _ hn) (lt_irrefl _)

/-- C3. When `AddDefinition` builds a definition for a name that `map`
already has, in a state whose pointers point into the store: the definition
is a new object, at an address that held no object and that neither `vec`
nor `map` contained; every object of the store, the one `map` had for the
name included, is what it was; every position of `vec` holds the pointer it
held; and of `map` only the entry of the name has changed, to the new
object. -/
theorem C3_redefinition {E D : Type} (engine : Engine E D) (w : World E) (lexer : Lexer)
    (d : Definition E) (q : Ptr) (hWF : w.WF)
    (hdef : w.globals.map lexer.GetName = some q)
    (h : AddDefinition.Builds engine w lexer d) :
    w.heap[w.heap.length]? = none ∧
    (AddDefinition engine w lexer).2.heap[w.heap.length]? = some d ∧
    d.name = lexer.GetName ∧
    w.heap.length ≠ q ∧
    w.heap.length ∉ w.globals.vec ∧
    (∀ n, w.globals.map n ≠ some w.heap.length) ∧
    (∀ p, p < w.heap.length → (AddDefinition engine w lexer).2.heap[p]? = w.heap[p]?) ∧
    (AddDefinition engine w lexer).2.heap[q]? = w.heap[q]? ∧
    (∀ i, i < w.globals.vec.length →
      (AddDefinition engine w lexer).2.globals.vec[i]? = w.globals.vec[i]?) ∧
    (AddDefinition engine w lexer).2.globals.map lexer.GetName = some w.heap.length ∧
    (∀ n, n ≠ lexer.GetName →
      (AddDefinition engine w lexer).2.globals.map n = w.globals.map n) := by
  obtain ⟨hf1, hf2, hf3⟩ := WF_fresh w hWF
  have hq : q < w.heap.length := hWF.2 _ _ hdef
  have hname : d.name = lexer.GetName := by
    obtain ⟨lexer1, lexer3, names, expression, _, _, _, _, _, hd⟩ := h
    rw [hd]; rfl
  rw [AddDefinition_of_Builds engine w lexer d h]
  refine ⟨hf1, List.getElem?_concat_length _ _, hname, Nat.ne_of_gt hq, hf2, hf3,
    ?_, ?_, ?_, ?_, ?_⟩
  · intro p hp
    exact List.getElem?_append_left hp
  · exact List.getElem?_append_left hq
  · intro i hi
    exact List.getElem?_append_left hi
  · show Function.update w.globals.map d.name (some w.heap.length) lexer.GetName = _
    rw [hname, Function.update_same]
  · intro n hn
    show Function.update w.globals.map d.name (some w.heap.length) n = _
    rw [hname, Function.update_noteq hn]

theorem AddDefinition_WF {E D : Type} (engine : Engine E D) (w : World E) (lexer : Lexer)
    (hWF : w.WF) : (AddDefinition engine w lexer).2.WF := by
  by_cases hB : ∃ d, AddDefinition.Builds engine w lexer d
  · obtain ⟨d, hd⟩ := hB
    rw [AddDefinition_of_Builds engine w lexer d hd]
    constructor
    · intro p hp
      have hp2 : p ∈ w.globals.vec ++ [w.heap.length] := hp
      show p < (w.heap ++ [d]).length
      rw [List.length_append, List.length_singleton]
      rcases List.mem_append.mp hp2 with hp3 | hp3
      · exact Nat.lt_succ_of_lt (hWF.1 p hp3)
      · rw [List.mem_singleton.mp hp3]
        exact Nat.lt_succ_self _
    · intro n p hp
      have hp2 : Function.update w.globals.map d.name (some w.heap.length) n = some p := hp
      show p < (w.heap ++ [d]).length
      rw [List.length_append, List.length_singleton]
      by_cases hn : n = d.name
      · rw [hn, Function.update_same] at hp2
        cases hp2
        exact Nat.lt_succ_self _
      · rw [Function.update_noteq hn] at hp2
        exact Nat.lt_succ_of_lt (hWF.2 n p hp2)
  · obtain ⟨h1, h2⟩ := AddDefinition_of_not_Builds engine w lexer hB
    unfold World.WF
    rw [h1, h2]
    exact hWF

theorem WF_empty {E : Type} : (World.empty : World E).WF := by
  constructor
  · intro q hq
    simp [World.empty] at hq
  · intro n q hq
    simp [World.empty] at hq

theorem Reachable_WF {E D : Type} (engine : Engine E D) (w : World E)
    (h : World.Reachable engine w) : w.WF := by
  induction h with
  | empty => exact WF_empty
  | step w lexer _ ih => exact AddDefinition_WF engine w lexer ih

theorem sampleWorld_WF : sampleWorld.WF :=
  AddDefinition_WF demo World.empty (demoLex sampleText) WF_empty

theorem sample_Builds_again :
    AddDefinition.Builds demo sampleWorld (demoLex sampleText) sampleDefinition :=
  ⟨_, _, _, _, by decide, rfl, by decide, rfl, rfl, rfl⟩

/-- C3, witness: `sq` is defined a second time. -/
theorem C3_redefinition_witness :
    sampleWorld.WF ∧
    sampleWorld.globals.map (demoLex sampleText).GetName = some 0 ∧
    AddDefinition.Builds demo sampleWorld (demoLex sampleText) sampleDefinition ∧
    (AddDefinition demo sampleWorld (demoLex sampleText)).2.heap[0]? = sampleWorld.heap[0]? :=
  ⟨sampleWorld_WF, rfl, sample_Builds_again,
    (C3_redefinition demo sampleWorld (demoLex sampleText) sampleDefinition 0
      sampleWorld_WF rfl sample_Builds_again).2.2.2.2.2.2.2.1⟩

theorem Builds_flow {E D : Type} (engine : Engine E D) (w : World E) (lexer : Lexer)
    (e : Exn) (w1 : World E) (h : AddDefinition engine w lexer = (.uncaught e, w1)) :
    ¬ ∃ d, AddDefinition.Builds engine w lexer d := by
  rintro ⟨d, hd⟩
  rw [AddDefinition_of_Builds engine w lexer d hd] at h
  cases h

/-- C10. In a state whose pointers point into the store, whenever
`AddDefinition` reaches the body (name, token after it, optional parameter
list and `=>` accepted), its result is decided by one call of the parser:
the parser gets the lexer on the first token of the body, `globals.map` as
it was before the call, and the new `Definition`, which is an object of the
store with the name, the `isFunction` flag and the parameter names that the
inserted definition will have and with no expression, and which neither
`vec` nor `map` contains; only when the parser returns is the expression
attached and the definition inserted. A first token that is not a name, a
failing `Advance`, a malformed parameter list, a missing `=>` and a parse
error of the body each end the call with the exception and the state as it
was; so does the query `def <name>`, apart from its output. -/
theorem C10_two_phase {E D : Type} (engine : Engine E D) (w : World E) (lexer : Lexer)
    (hWF : w.WF) :
    (∀ lexer1 lexer3 names, lexer.GetTokenType = .Name → lexer.Advance = .ok lexer1 →
      lexer1.GetTokenType ≠ .None → AddDefinition.head lexer1 = .ok (lexer3, names) →
      AddDefinition engine w lexer =
        (match engine.ParseFullExpression lexer3 w.globals.map
            (w.heap ++ [AddDefinition.inProgress lexer lexer1 names])
            (some w.heap.length) with
          | .error e => (.uncaught e, w)
          | .ok expression =>
            (.next,
              { heap := w.heap ++ [AddDefinition.built lexer lexer1 names expression]
                globals :=
                  { vec := w.globals.vec ++ [w.heap.length]
                    map := Function.update w.globals.map lexer.GetName
                      (some w.heap.length) }
                output := w.output })) ∧
      (w.heap ++ [(AddDefinition.inProgress lexer lexer1 names : Definition E)])[w.heap.length]?
        = some (AddDefinition.inProgress lexer lexer1 names) ∧
      (AddDefinition.inProgress lexer lexer1 names : Definition E).expression = none ∧
      (∀ expression : E,
        (AddDefinition.built lexer lexer1 names expression).name
          = (AddDefinition.inProgress lexer lexer1 names : Definition E).name ∧
        (AddDefinition.built lexer lexer1 names expression).isFunction
          = (AddDefinition.inProgress lexer lexer1 names : Definition E).isFunction ∧
        (AddDefinition.built lexer lexer1 names expression).paramNames
          = (AddDefinition.inProgress lexer lexer1 names : Definition E).paramNames ∧
        (AddDefinition.built lexer lexer1 names expression).expression = some expression) ∧
      w.heap.length ∉ w.globals.vec ∧
      (∀ n, w.globals.map n ≠ some w.heap.length)) ∧
    (lexer.GetTokenType ≠ .Name →
      AddDefinition engine w lexer =
        (.uncaught (lexer.Fail "Name expected after 'def'."), w)) ∧
    (∀ e, lexer.GetTokenType = .Name → lexer.Advance = .error e →
      AddDefinition engine w lexer = (.uncaught e, w)) ∧
    (∀ lexer1 e, lexer.GetTokenType = .Name → lexer.Advance = .ok lexer1 →
      lexer1.GetTokenType ≠ .None → AddDefinition.head lexer1 = .error e →
      AddDefinition engine w lexer = (.uncaught e, w)) ∧
    (∀ lexer1 : Lexer, lexer1.GetTokenType ≠ .StartGroup → lexer1.GetTokenType ≠ .Lamda →
      AddDefinition.head lexer1 = .error (lexer1.Fail "'=>' expected.")) ∧
    (∀ lexer1 lexer2 names, lexer1.GetTokenType = .StartGroup →
      ReadParamList lexer1 [] = .ok (lexer2, names) → lexer2.GetTokenType ≠ .Lamda →
      AddDefinition.head lexer1 = .error (lexer2.Fail "'=>' expected.")) ∧
    (∀ lexer1 e, lexer1.GetTokenType = .StartGroup → ReadParamList lexer1 [] = .error e →
      AddDefinition.head lexer1 = .error e) ∧
    (∀ e w1, AddDefinition engine w lexer = (.uncaught e, w1) →
      w1.heap = w.heap ∧ w1.globals = w.globals) ∧
    (∀ lexer1, lexer.GetTokenType = .Name → lexer.Advance = .ok lexer1 →
      lexer1.GetTokenType = .None →
      (AddDefinition engine w lexer).2.heap = w.heap ∧
      (AddDefinition engine w lexer).2.globals = w.globals) := by
  obtain ⟨_, hf2, hf3⟩ := WF_fresh w hWF
  refine ⟨?_, ?_, ?_, ?_, ?_, ?_, ?_, ?_, ?_⟩
  · intro lexer1 lexer3 names hN hA h0 hH
    refine ⟨?_, List.getElem?_concat_length _ _, rfl, fun _ => ⟨rfl, rfl, rfl, rfl⟩, hf2, hf3⟩
    rw [AddDefinition_eq]
    simp only [hN, ne_eq, not_true_eq_false, if_false, hA, h0, hH]
  · intro hN
    rw [AddDefinition_eq]
    simp only [hN, ne_eq, not_false_eq_true, if_true]
  · intro e hN hA
    rw [AddDefinition_eq]
    simp only [hN, ne_eq, not_true_eq_false, if_false, hA]
  · intro lexer1 e hN hA h0 hH
    rw [AddDefinition_eq]
    simp only [hN, ne_eq, not_true_eq_false, if_false, hA, h0, hH]
  · intro lexer1 hS hL
    unfold AddDefinition.head
    simp only [hS, hL, ne_eq, not_false_eq_true, if_true, if_false]
  · intro lexer1 lexer2 names hS hR hL
    unfold AddDefinition.head
    simp only [hS, hR, hL, ne_eq, not_false_eq_true, if_true]
  · intro lexer1 e hS hR
    unfold AddDefinition.head
    simp only [hS, hR, if_true]
  · intro e w1 h
    have := AddDefinition_of_not_Builds engine w lexer (Builds_flow engine w lexer e w1 h)
    rw [h] at this
    exact this
  · intro lexer1 hN hA h0
    apply AddDefinition_of_not_Builds
    rintro ⟨d, l1, l3, names, expression, _, hA2, h02, _⟩
    rw [hA] at hA2
    cases hA2
    exact h02 h0

/-- C10, witness: the state after one definition and the text
`sq ( n ) => n * n`. -/
theorem C10_two_phase_witness :
    sampleWorld.WF ∧
    ((demoLex sampleText).GetTokenType ≠ .Name →
      AddDefinition demo sampleWorld (demoLex sampleText) =
        (.uncaught ((demoLex sampleText).Fail "Name expected after 'def'."), sampleWorld)) :=
  ⟨sampleWorld_WF, (C10_two_phase demo sampleWorld (demoLex sampleText) sampleWorld_WF).2.1⟩

/-! ### Lookup by name -/

theorem lastNamed_congr {E : Type} (w w1 : World E) (n : String)
    (hh : w1.heap = w.heap) (hg : w1.globals = w.globals) :
    w1.lastNamed n = w.lastNamed n := by
  unfold World.lastNamed
  rw [hh, hg]

theorem filter_heap_append {E : Type} (heap : Heap E) (d : Definition E) (n : String)
    (vec : List Ptr) (hvec : ∀ q, q ∈ vec → q < heap.length) :
    vec.filter (fun q => decide (((heap ++ [d])[q]?).map (fun d => d.name) = some n))
      = vec.filter (fun q => decide ((heap[q]?).map (fun d => d.name) = some n)) := by
  apply List.filter_congr
  intro q hq
  rw [List.getElem?_append_left (hvec q hq)]

theorem lastNamed_insert {E : Type} (w : World E) (d : Definition E) (n : String)
    (hWF : w.WF) :
    World.lastNamed
      { heap := w.heap ++ [d]
        globals :=
          { vec := w.globals.vec ++ [w.heap.length]
            map := Function.update w.globals.map d.name (some w.heap.length) }
        output := w.output } n
      = if n = d.name then some w.heap.length else w.lastNamed n := by
  unfold World.lastNamed
  simp only [List.filter_append]
  rw [filter_heap_append w.heap d n w.globals.vec hWF.1]
  have hnew : (w.heap ++ [d])[w.heap.length]? = some d := List.getElem?_concat_length _ _
  by_cases hn : n = d.name
  · have : [w.heap.length].filter
        (fun q => decide (((w.heap ++ [d])[q]?).map (fun d => d.name) = some n))
        = [w.heap.length] := by
      simp [List.filter, hnew, hn]
    rw [this, if_pos hn, List.getLast?_append]
    rfl
  · have : [w.heap.length].filter
        (fun q => decide (((w.heap ++ [d])[q]?).map (fun d => d.name) = some n))
        = [] := by
      have hne : ¬ d.name = n := fun e => hn e.symm
      simp [List.filter, hnew, hne]
    rw [this, if_neg hn, List.append_nil]

theorem Current_empty {E : Type} : (World.empty : World E).Current := by
  constructor
  · intro n
    rfl
  · intro d hd
    simp [World.empty] at hd

theorem AddDefinition_Current {E D : Type} (engine : Engine E D) (w : World E)
    (lexer : Lexer) (hWF : w.WF) (hC : w.Current) :
    (AddDefinition engine w lexer).2.Current := by
  by_cases hB : ∃ d, AddDefinition.Builds engine w lexer d
  · obtain ⟨d, hd⟩ := hB
    rw [AddDefinition_of_Builds engine w lexer d hd]
    constructor
    · intro n
      rw [lastNamed_insert w d n hWF]
      show Function.update w.globals.map d.name (some w.heap.length) n = _
      by_cases hn : n = d.name
      · rw [if_pos hn, hn, Function.update_same]
      · rw [if_neg hn, Function.update_noteq hn]
        exact hC.1 n
    · intro d1 hd1
      have hd2 : d1 ∈ w.heap ++ [d] := hd1
      rcases List.mem_append.mp hd2 with h1 | h1
      · exact hC.2 d1 h1
      · rw [List.mem_singleton.mp h1]
        obtain ⟨_, _, _, expression, _, _, _, _, _, hd3⟩ := hd
        rw [hd3]
        simp [AddDefinition.built]
  · obtain ⟨h1, h2⟩ := AddDefinition_of_not_Builds engine w lexer hB
    constructor
    · intro n
      rw [lastNamed_congr w _ n h1 h2, h2]
      exact hC.1 n
    · intro d hd
      rw [h1] at hd
      exact hC.2 d hd

theorem Reachable_Current {E D : Type} (engine : Engine E D) (w : World E)
    (h : World.Reachable engine w) : w.Current := by
  induction h with
  | empty => exact Current_empty
  | step w lexer hr ih =>
    exact AddDefinition_Current engine w lexer (Reachable_WF engine w hr) ih

theorem lastNamed_some {E : Type} (w : World E) (n : String) (p : Ptr)
    (h : w.lastNamed n = some p) :
    p ∈ w.globals.vec ∧ ∃ d, w.heap[p]? = some d ∧ d.name = n := by
  unfold World.lastNamed at h
  have hmem := List.mem_of_getLast?_eq_some h
  rw [List.mem_filter] at hmem
  obtain ⟨h1, h2⟩ := hmem
  refine ⟨h1, ?_⟩
  have h3 := of_decide_eq_true h2
  cases hd : w.heap[p]? with
  | none => rw [hd] at h3; cases h3
  | some d =>
    rw [hd] at h3
    simp only [Option.map_some', Option.some.injEq] at h3
    exact ⟨d, rfl, h3⟩

theorem lastNamed_isSome {E : Type} (w : World E) (n : String) (q : Ptr) (d : Definition E)
    (hq : q ∈ w.globals.vec) (hd : w.heap[q]? = some d) (hn : d.name = n) :
    ∃ p, w.lastNamed n = some p := by
  unfold World.lastNamed
  have hmem : q ∈ w.globals.vec.filter
      (fun q => decide ((w.heap[q]?).map (fun d => d.name) = some n)) := by
    rw [List.mem_filter]
    exact ⟨hq, decide_eq_true (by rw [hd]; simp [hn])⟩
  have hne : w.globals.vec.filter
      (fun q => decide ((w.heap[q]?).map (fun d => d.name) = some n)) ≠ [] :=
    List.ne_nil_of_mem hmem
  exact ⟨_, List.getLast?_eq_getLast _ hne⟩

/-- C2. In every state reached from the empty definition list by calls of
`AddDefinition`, whatever their input and outcome: `map` has for each name
the last entry of `vec` whose definition has that name, so it has an entry
for a name exactly when `vec` has an entry with that name; a further call
keeps the entries of `vec` in place and the definitions they point to as
they are; and the query `def <name>` prints the definition that is the last
entry of `vec` with that name, or reports that there is none. -/
theorem C2_lookup_current {E D : Type} (engine : Engine E D) (w : World E)
    (h : World.Reachable engine w) :
    (∀ n, w.globals.map n = w.lastNamed n) ∧
    (∀ n, (∃ p, w.globals.map n = some p) ↔
      ∃ q d, q ∈ w.globals.vec ∧ w.heap[q]? = some d ∧ d.name = n) ∧
    (∀ lexer, ∃ more,
      (AddDefinition engine w lexer).2.globals.vec = w.globals.vec ++ more) ∧
    (∀ lexer p, p < w.heap.length →
      (AddDefinition engine w lexer).2.heap[p]? = w.heap[p]?) ∧
    (∀ lexer lexer1, lexer.GetTokenType = .Name → lexer.Advance = .ok lexer1 →
      lexer1.GetTokenType = .None →
      (w.lastNamed lexer.GetName = none ∧
        AddDefinition engine w lexer =
          (.next, { w with output := w.output ++
            [.out ("No definition for " ++ lexer.GetName ++ ".\n")] })) ∨
      (∃ p d text, w.lastNamed lexer.GetName = some p ∧ w.heap[p]? = some d ∧
        d.name = lexer.GetName ∧
        PrintDefinition engine (w.heap ++ [({ name := lexer.GetName } : Definition E)]) d
          = some text ∧
        AddDefinition engine w lexer =
          (.next, { w with output := w.output ++ [.out text] }))) := by
  have hWF := Reachable_WF engine w h
  have hC := Reachable_Current engine w h
  refine ⟨hC.1, ?_, ?_, ?_, ?_⟩
  · intro n
    rw [hC.1 n]
    constructor
    · rintro ⟨p, hp⟩
      obtain ⟨h1, d, h2, h3⟩ := lastNamed_some w n p hp
      exact ⟨p, d, h1, h2, h3⟩
    · rintro ⟨q, d, h1, h2, h3⟩
      exact lastNamed_isSome w n q d h1 h2 h3
  · intro lexer
    by_cases hB : ∃ d, AddDefinition.Builds engine w lexer d
    · obtain ⟨d, hd⟩ := hB
      rw [AddDefinition_of_Builds engine w lexer d hd]
      exact ⟨[w.heap.length], rfl⟩
    · rw [(AddDefinition_of_not_Builds engine w lexer hB).2]
      exact ⟨[], (List.append_nil _).symm⟩
  · intro lexer p hp
    by_cases hB : ∃ d, AddDefinition.Builds engine w lexer d
    · obtain ⟨d, hd⟩ := hB
      rw [AddDefinition_of_Builds engine w lexer d hd]
      exact List.getElem?_append_left hp
    · rw [(AddDefinition_of_not_Builds engine w lexer hB).1]
  · intro lexer lexer1 hN hA h0
    rw [AddDefinition_eq]
    simp only [hN, ne_eq, not_true_eq_false, if_false, hA, h0, if_true, AddDefinition.query]
    rw [hC.1 lexer.GetName]
    cases hl : w.lastNamed lexer.GetName with
    | none => exact Or.inl ⟨rfl, rfl⟩
    | some p =>
      right
      obtain ⟨hmem, d, hd, hdn⟩ := lastNamed_some w _ p hl
      have hp : p < w.heap.length := hWF.1 p hmem
      have hd2 : (w.heap ++ [({ name := lexer.GetName } : Definition E)])[p]? = some d := by
        rw [List.getElem?_append_left hp]; exact hd
      have hex := hC.2 d (List.getElem?_mem hd)
      cases he : d.expression with
      | none => exact absurd he hex
      | some expression =>
        have hpr : ∃ text, PrintDefinition engine
            (w.heap ++ [({ name := lexer.GetName } : Definition E)]) d = some text := by
          unfold PrintDefinition
          rw [he]
          exact ⟨_, rfl⟩
        obtain ⟨text, htext⟩ := hpr
        refine ⟨p, d, text, rfl, hd, hdn, htext, ?_⟩
        simp only [hd2, htext]

/-- C2, witness: the state after one definition. -/
theorem C2_lookup_current_witness :
    World.Reachable demo sampleWorld ∧
    (∀ n, sampleWorld.globals.map n = sampleWorld.lastNamed n) :=
  ⟨World.Reachable.step World.empty (demoLex sampleText) World.Reachable.empty,
    (C2_lookup_current demo sampleWorld
      (World.Reachable.step World.empty (demoLex sampleText) World.Reachable.empty)).1⟩

/-! ## The handlers of the driver -/

theorem maxLength_x64 : maxLength x64 = 2 ^ 32 - 1 := by decide

/-- On the 32-bit platform the bound that keeps `bufferSize` within `size_t`
is the smaller one. -/
theorem maxLength_x86 : maxLength x86 = 2 ^ 32 - 10 := by decide

theorem longLine_length : longLine.length = 2 ^ 32 := List.length_replicate _ _

theorem NewData_too_long (P : Platform) (malloc : Nat → Bool) (input : List Char)
    (h : input.length > maxLength P) :
    NewData P malloc input input.length = some (.error .bad_alloc) := by
  unfold NewData
  rw [if_pos h]

theorem newLexer_too_long {E D : Type} (engine : Engine E D) (P : Platform)
    (input : List Char) (h : input.length > maxLength P) :
    newLexer engine P input = some (.error .bad_alloc) := by
  unfold newLexer
  rw [NewData_too_long P _ input h]

theorem RunInteractive_body_too_long {E D : Type} (engine : Engine E D) (P : Platform)
    (w : World E) (input : List Char) (h : input.length > maxLength P) :
    RunInteractive.body engine P w input =
      (.uncaught .bad_alloc, { w with output := w.output ++ [.out "\n> "] }) := by
  unfold RunInteractive.body RunInteractive.tryBlock
  rw [newLexer_too_long engine P input h]
  rfl

theorem LoadDefinitions_body_too_long {E D : Type} (engine : Engine E D) (P : Platform)
    (w : World E) (input : List Char) (filePath : String) (lineNumber : Nat)
    (h : input.length > maxLength P) :
    LoadDefinitions.body engine P filePath w lineNumber input = (.uncaught .bad_alloc, w) := by
  unfold LoadDefinitions.body LoadDefinitions.tryBlock
  rw [newLexer_too_long engine P input h]
  rfl

theorem LoadDefinitions_too_long {E D : Type} (engine : Engine E D) (P : Platform)
    (w : World E) (input : List Char) (filePath : String) (rest : List (List Char))
    (h : input.length > maxLength P) :
    LoadDefinitions engine P (some (filePath, input :: rest)) w = (.uncaught .bad_alloc, w) := by
  simp only [LoadDefinitions, LoadDefinitions.loop,
    LoadDefinitions_body_too_long engine P w input filePath 1 h]

/-- The handler of `RunInteractive` and `main` on a caught exception. -/
theorem catch_caught {E : Type} (r : Flow × World E) (e : ExpressionException)
    (w1 : World E) (h : r = (.uncaught (.expression e), w1)) :
    catchExpressionException r = (.next, { w1 with output := w1.output ++ [.error e] }) := by
  subst h
  rfl

/-- No `ExpressionException` passes the handler of `RunInteractive` and
`main`. -/
theorem catch_none_left {E : Type} (r : Flow × World E) (e : ExpressionException) :
    (catchExpressionException r).1 ≠ .uncaught (.expression e) := by
  obtain ⟨f, w⟩ := r
  unfold catchExpressionException
  intro hc
  cases f with
  | next => cases hc
  | stop => cases hc
  | undefined => cases hc
  | uncaught x =>
    cases x with
    | expression e1 => cases hc
    | bad_alloc => cases hc

/-- No `ExpressionException` passes the handler of `LoadDefinitions`. -/
theorem handler_none_left {E : Type} (filePath : String) (lineNumber : Nat)
    (r : Flow × World E) (e : ExpressionException) :
    (LoadDefinitions.handler filePath lineNumber r).1 ≠ .uncaught (.expression e) := by
  obtain ⟨f, w⟩ := r
  unfold LoadDefinitions.handler
  intro hc
  cases f with
  | next => cases hc
  | stop => cases hc
  | undefined => cases hc
  | uncaught x =>
    cases x with
    | expression e1 => cases hc
    | bad_alloc => cases hc

theorem printAll_table {E D : Type} (engine : Engine E D) (ps : List Ptr) (w : World E) :
    (printAll engine w ps).2.heap = w.heap ∧ (printAll engine w ps).2.globals = w.globals := by
  induction ps generalizing w with
  | nil => exact ⟨rfl, rfl⟩
  | cons p rest ih =>
    unfold printAll
    cases w.heap[p]? with
    | none => exact ⟨rfl, rfl⟩
    | some d =>
      simp only
      cases PrintDefinition engine w.heap d with
      | none => exact ⟨rfl, rfl⟩
      | some text => exact ih _

theorem Evaluate_table {E D : Type} (engine : Engine E D) (w : World E) (lexer : Lexer) :
    (Evaluate engine w lexer).2.heap = w.heap ∧
      (Evaluate engine w lexer).2.globals = w.globals := by
  unfold Evaluate
  cases engine.ParseFullExpression lexer w.globals.map w.heap none with
  | error e => exact ⟨rfl, rfl⟩
  | ok parsedExpr =>
    simp only
    cases engine.Evaluate w.heap parsedExpr with
    | error e => exact ⟨rfl, rfl⟩
    | ok value => exact ⟨rfl, rfl⟩

theorem AddDefinition_uncaught_table {E D : Type} (engine : Engine E D) (w : World E)
    (lexer : Lexer) (x : Exn) (w1 : World E)
    (h : AddDefinition engine w lexer = (.uncaught x, w1)) :
    w1.heap = w.heap ∧ w1.globals = w.globals := by
  have := AddDefinition_of_not_Builds engine w lexer (Builds_flow engine w lexer x w1 h)
  rw [h] at this
  exact this

/-- A line of input whose guarded block ends in an exception leaves the
store and the definition list as they were. -/
theorem RunInteractive_tryBlock_table {E D : Type} (engine : Engine E D) (P : Platform)
    (w : World E) (input : List Char) (x : Exn) (w1 : World E)
    (h : RunInteractive.tryBlock engine P w input = (.uncaught x, w1)) :
    w1.heap = w.heap ∧ w1.globals = w.globals := by
  have hsnd : ∀ r : Flow × World E, r = (.uncaught x, w1) → r.2 = w1 := by
    intro r hr
    rw [hr]
  unfold RunInteractive.tryBlock at h
  cases hL : newLexer engine P input with
  | none =>
    rw [hL] at h
    cases h
  | some r =>
    cases r with
    | error e =>
      rw [hL] at h
      cases h
      exact ⟨rfl, rfl⟩
    | ok lexer =>
      rw [hL] at h
      simp only at h
      split_ifs at h
      · cases h
      · cases h
      · cases h
      · cases hA : lexer.Advance with
        | error e =>
          rw [hA] at h
          cases h
          exact ⟨rfl, rfl⟩
        | ok lexer1 =>
          rw [hA] at h
          exact AddDefinition_uncaught_table engine w lexer1 x w1 h
      · have := printAll_table engine w.globals.vec w
        rw [hsnd _ h] at this
        exact this
      · have := Evaluate_table engine w lexer
        rw [hsnd _ h] at this
        exact this
      · have := Evaluate_table engine w lexer
        rw [hsnd _ h] at this
        exact this

/-- A line of the definitions file whose guarded block ends in an exception
leaves the store and the definition list as they were. -/
theorem LoadDefinitions_tryBlock_table {E D : Type} (engine : Engine E D) (P : Platform)
    (w : World E) (inputLine : List Char) (x : Exn) (w1 : World E)
    (h : LoadDefinitions.tryBlock engine P w inputLine = (.uncaught x, w1)) :
    w1.heap = w.heap ∧ w1.globals = w.globals := by
  unfold LoadDefinitions.tryBlock at h
  cases hL : newLexer engine P inputLine with
  | none =>
    rw [hL] at h
    cases h
  | some r =>
    cases r with
    | error e =>
      rw [hL] at h
      cases h
      exact ⟨rfl, rfl⟩
    | ok lexer =>
      rw [hL] at h
      simp only at h
      split_ifs at h
      · exact AddDefinition_uncaught_table engine w lexer x w1 h
      · cases h

/-- C6, as the code has it. A source text longer than `maxLength` makes
`NewData` throw `std::bad_alloc`, whatever `malloc` does, and
`std::bad_alloc` is not an `ExpressionException`: the handlers of
`RunInteractive`, `LoadDefinitions` and `main` let it pass, so it leaves the
command loop, the loading of the definitions file and the evaluation of the
command line, with the store and the definition list as they were. Every
`ExpressionException` that leaves the guarded block of a line is caught by
the handler of that line: for an interactive line the handler of
`RunInteractive` prints the error and the command loop goes on with the
next line; for a line of the definitions file the handler of
`LoadDefinitions` prints the file, the line number and the error and the
loop goes on with the next line; for the command line the handler of `main`
prints the error and `main` returns normally. In the two loops the store
and the definition list are, after the handler, as they were before the
line. No `ExpressionException` ever passes one of the three handlers. -/
theorem C6_oversized_not_caught {E D : Type} (engine : Engine E D) (P : Platform)
    (w : World E) (input : List Char) (h : input.length > maxLength P) :
    (∀ malloc, NewData P malloc input input.length = some (.error .bad_alloc)) ∧
    RunInteractive.body engine P w input =
      (.uncaught .bad_alloc, { w with output := w.output ++ [.out "\n> "] }) ∧
    (∀ rest, RunInteractive.loop engine P w (input :: rest) =
      (.uncaught .bad_alloc, { w with output := w.output ++ [.out "\n> "] })) ∧
    (∀ filePath lineNumber,
      LoadDefinitions.body engine P filePath w lineNumber input = (.uncaught .bad_alloc, w)) ∧
    (∀ filePath rest,
      LoadDefinitions engine P (some (filePath, input :: rest)) w = (.uncaught .bad_alloc, w)) ∧
    (∀ filePath rest inputs,
      (RunInteractive engine P (some (filePath, input :: rest)) inputs).1
        = .uncaught .bad_alloc) ∧
    (∀ file w1, LoadDefinitions engine P file World.empty = (.next, w1) →
      main.evaluate engine P file input = (.uncaught .bad_alloc, w1)) ∧
    (∀ line e w1,
      RunInteractive.tryBlock engine P { w with output := w.output ++ [.out "\n> "] } line
        = (.uncaught (.expression e), w1) →
      RunInteractive.body engine P w line
        = (.next, { w1 with output := w1.output ++ [.error e] }) ∧
      (∀ rest, RunInteractive.loop engine P w (line :: rest)
        = RunInteractive.loop engine P { w1 with output := w1.output ++ [.error e] } rest) ∧
      w1.heap = w.heap ∧ w1.globals = w.globals) ∧
    (∀ filePath lineNumber line e w1,
      LoadDefinitions.tryBlock engine P w line = (.uncaught (.expression e), w1) →
      LoadDefinitions.body engine P filePath w lineNumber line
        = (.next, { w1 with output := w1.output ++
            [.err ("Error: " ++ filePath ++ ", line " ++ toString lineNumber ++ ":\n"),
              .error e] }) ∧
      (∀ rest, LoadDefinitions.loop engine P filePath w lineNumber (line :: rest)
        = LoadDefinitions.loop engine P filePath
            { w1 with output := w1.output ++
              [.err ("Error: " ++ filePath ++ ", line " ++ toString lineNumber ++ ":\n"),
                .error e] } (lineNumber + 1) rest) ∧
      w1.heap = w.heap ∧ w1.globals = w.globals) ∧
    (∀ file line e w1,
      main.tryBlock engine P file line = (.uncaught (.expression e), w1) →
      main.evaluate engine P file line
        = (.next, { w1 with output := w1.output ++ [.error e] })) ∧
    (∀ line e, (RunInteractive.body engine P w line).1 ≠ .uncaught (.expression e)) ∧
    (∀ filePath lineNumber line e,
      (LoadDefinitions.body engine P filePath w lineNumber line).1
        ≠ .uncaught (.expression e)) ∧
    (∀ file line e, (main.evaluate engine P file line).1 ≠ .uncaught (.expression e)) := by
  have hL := newLexer_too_long engine P input h
  have hRI := RunInteractive_body_too_long engine P w input h
  refine ⟨fun malloc => NewData_too_long P malloc input h, hRI, ?_,
    fun filePath lineNumber => LoadDefinitions_body_too_long engine P w input filePath lineNumber h,
    fun filePath rest => LoadDefinitions_too_long engine P w input filePath rest h,
    ?_, ?_, ?_, ?_, ?_,
    fun line e => catch_none_left _ e,
    fun filePath lineNumber line e => handler_none_left filePath lineNumber _ e,
    fun file line e => catch_none_left _ e⟩
  · intro rest
    simp only [RunInteractive.loop, hRI]
  · intro filePath rest inputs
    simp only [RunInteractive, LoadDefinitions_too_long engine P World.empty input filePath rest h]
  · intro file w1 hw1
    simp only [main.evaluate, main.tryBlock, hw1, hL]
    rfl
  · intro line e w1 ht
    have hb : RunInteractive.body engine P w line
        = (.next, { w1 with output := w1.output ++ [.error e] }) :=
      catch_caught _ e w1 ht
    have ht2 := RunInteractive_tryBlock_table engine P _ line _ w1 ht
    refine ⟨hb, ?_, ht2⟩
    intro rest
    simp only [RunInteractive.loop, hb]
  · intro filePath lineNumber line e w1 ht
    have hb : LoadDefinitions.body engine P filePath w lineNumber line
        = (.next, { w1 with output := w1.output ++
            [.err ("Error: " ++ filePath ++ ", line " ++ toString lineNumber ++ ":\n"),
              .error e] }) := by
      unfold LoadDefinitions.body LoadDefinitions.handler
      rw [ht]
    have ht2 := LoadDefinitions_tryBlock_table engine P w line _ w1 ht
    refine ⟨hb, ?_, ht2⟩
    intro rest
    simp only [LoadDefinitions.loop, hb]
  · intro file line e w1 ht
    exact catch_caught _ e w1 ht

theorem longLine_too_long : longLine.length > maxLength x64 := by
  rw [longLine_length, maxLength_x64]
  decide

/-- C6, witness: a line of `2 ^ 32` characters on the 64-bit platform is
not caught; the line `def`, for which `AddDefinition` throws an
`ExpressionException`, is caught, and the command loop goes on to the next
line, here the command `q`. -/
theorem C6_oversized_not_caught_witness :
    longLine.length > maxLength x64 ∧
    NewData x64 (fun _ => false) longLine longLine.length = some (.error .bad_alloc) ∧
    (RunInteractive.loop demo x64 World.empty [['d', 'e', 'f'], ['q']]).1 = .stop :=
  ⟨longLine_too_long,
    (C6_oversized_not_caught demo x64 World.empty longLine longLine_too_long).1 _,
    ((C6_oversized_not_caught demo x64 World.empty longLine longLine_too_long).2.2.2.2.2.2.2.1
      ['d', 'e', 'f'] _ _ rfl).2.1 [['q']] ▸ rfl⟩

/-- C6, counterexample: for a line of `2 ^ 32` characters on the 64-bit
platform the creation of the `StringRef` fails, and the failure is not
caught by the handler of `RunInteractive`: it leaves the command loop. -/
theorem C6_counterexample :
    NewData x64 (fun _ => true) longLine longLine.length = some (.error .bad_alloc) ∧
    (RunInteractive.body demo x64 World.empty longLine).1 = .uncaught .bad_alloc ∧
    (RunInteractive.body demo x64 World.empty longLine).1 ≠ .next := by
  have hRI := RunInteractive_body_too_long demo x64 World.empty longLine longLine_too_long
  refine ⟨NewData_too_long x64 _ longLine longLine_too_long, ?_, ?_⟩
  · rw [hRI]
  · rw [hRI]
    exact fun hc => Flow.noConfusion hc

/-! ## Lexers on the same tokens -/

theorem Except_map_ok {α β : Type} (f : α → β) (a : α) :
    Except.map f (Except.ok a : Except Exn α) = .ok (f a) := rfl

theorem Except_map_error {α β : Type} (f : α → β) (e : Exn) :
    Except.map f (Except.error e : Except Exn α) = .error e := rfl

theorem loop_names (fuel : Nat) :
    ∀ (l : Lexer) (names : List String),
      ReadParamList.loop fuel l names
        = Except.map (fun r => (r.1, names ++ r.2)) (ReadParamList.loop fuel l []) := by
  induction fuel with
  | zero =>
    intro l names
    simp only [ReadParamList.loop, Except_map_ok, List.append_nil]
  | succ n ih =>
    intro l names
    simp only [ReadParamList.loop, List.nil_append]
    cases l.Advance with
    | error e => rfl
    | ok l1 =>
      simp only
      by_cases hE : l1.GetTokenType = .EndGroup
      · simp only [hE, if_true]
        cases l1.Advance with
        | error e => rfl
        | ok l2 => rfl
      · simp only [hE, if_false]
        by_cases hC : l1.GetTokenType = .Comma
        · simp only [hC, ne_eq, not_true_eq_false, if_false]
          cases l1.Advance with
          | error e => rfl
          | ok l2 =>
            simp only
            by_cases hN : l2.GetTokenType = .Name
            · simp only [hN, ne_eq, not_true_eq_false, if_false]
              rw [ih l2 (names ++ [l.GetName]), ih l2 [l.GetName]]
              cases ReadParamList.loop n l2 [] with
              | error e => rfl
              | ok r => simp only [Except_map_ok, List.append_assoc]
            · simp only [hN, ne_eq, not_false_eq_true, if_true]
              rfl
        · simp only [hC, ne_eq, not_false_eq_true, if_true]
          rfl

/-- The function `ReadParamList` appends to the vector it is given: its
outcome for a vector `names` is its outcome for the empty vector, with
`names` in front of the names read. -/
theorem ReadParamList_names (l : Lexer) (names : List String) :
    ReadParamList l names
      = Except.map (fun r => (r.1, names ++ r.2)) (ReadParamList l []) := by
  unfold ReadParamList
  cases l.Advance with
  | error e => rfl
  | ok l1 =>
    simp only
    by_cases hE : l1.GetTokenType = .EndGroup
    · simp only [hE, if_true]
      cases l1.Advance with
      | error e => rfl
      | ok l2 => simp only [Except_map_ok, List.append_nil]
    · simp only [hE, if_false]
      by_cases hN : l1.GetTokenType = .Name
      · simp only [hN, ne_eq, not_true_eq_false, if_false]
        exact loop_names _ l1 names
      · simp only [hN, ne_eq, not_false_eq_true, if_true]
        rfl

end num
